import Mathlib

/-!
Verification of the scoped-config merge engine
(`src/scopedconfig/newscoped_config.go`, package `scopedconfig`).

The Go code performs generic, reflection-based structural merging of
caller-defined record values.  We embed the dynamic (reflection-level)
value universe as the inductive type `GoVal`; every operation of the
source file is translated into a function on `GoVal`:

  - `isEmpty`            (newscoped_config.go, `isEmpty`)
  - `mergeIntoInherited` (newscoped_config.go, `mergeIntoInherited`)
  - `mergeInto`          (newscoped_config.go, `mergeInto`)
  - `Save`, `SaveMerge`, `LoadWithBase`, `Load`, `Remove`,
    `RemoveField`, `SetField`, `SetFieldAtomic` against a store modelled
    as an association list from scope id to stored record.

Conventions of the embedding:
  - Go `nil` pointers / slices / maps are the constructors `vptrNil`,
    `vsliceNil`, `vmapNil`; non-nil ones carry their contents.  Maps are
    association lists with string keys (the engine persists bson
    documents, whose keys are strings).
  - `time.Time` is the constructor `vtime` carrying an abstract instant;
    the Go code treats it as an atomic scalar (`reflect.Struct` kind but
    special-cased), never decomposing it.
  - A struct field is `(name, exported, value)`; `exported` models
    `fieldType.PkgPath == ""`.  Anonymous (embedded) fields are not used
    by the engine's callers and are not modelled.
  - `reflect.Value.Set` panics recovered by the `defer` in the default
    branch of `mergeIntoInherited` become `err = some mergeSetErr`;
    panics at spots with no enclosing `recover` (which abort the Go
    process and are unreachable for the same-typed values the engine
    feeds to the merge) are modelled as the `none` result.
  - bson marshalling is assumed faithful: a stored record unmarshals to
    the value that was stored, and bson field keys are the lower-cased
    Go field names.
-/

namespace ScopedConfig

/-- Dynamic Go value as seen by the reflection-based merge. -/
inductive GoVal : Type where
  | vint (n : Int)
  | vstr (s : String)
  | vbool (b : Bool)
  | vtime (t : Int)
  | vptrNil
  | vptr (v : GoVal)
  | vsliceNil
  | vslice (xs : List GoVal)
  | vmapNil
  | vmap (entries : List (String × GoVal))
  | vstruct (fs : List (String × Bool × GoVal))

/-- Struct field of the embedding: name, exported flag, value. -/
abbrev Fld : Type := String × Bool × GoVal

/-- Engine configuration, `NScopedConfig` of the source (the private
`coll` collection name is carried for fidelity; it only names the store
collection). -/
structure NScopedConfig where
  coll : String
  AllowedPools : List String
  AllowEmpty : Bool
  ShallowMerge : Bool

/-- Lower-cased characters of a Go identifier, modelling
`strings.ToLower`. -/
def lowerChars (s : String) : List Char := s.data.map Char.toLower

/-- Suffix test on character lists (modelling `strings.HasSuffix` after
lower-casing). -/
def charsSuffix (pat : List Char) (s : List Char) : Bool :=
  s.drop (s.length - pat.length) == pat

/-- Does the lower-cased field name end in "inherited"
(`strings.HasSuffix(strings.ToLower(fieldType.Name), "inherited")`)? -/
def nameEndsInherited (s : String) : Bool :=
  charsSuffix "inherited".data (lowerChars s)

/-- Case-insensitive name equality (`strings.ToLower(a) ==
strings.ToLower(b)`). -/
def sameLowerName (a b : String) : Bool := lowerChars a == lowerChars b

/-- Is the lower-cased name of `a` exactly lower-cased `b` followed by
"inherited"?  This is the match used by the `FieldByNameFunc` companion
lookup in `mergeIntoInherited`. -/
def isCompanionName (a b : String) : Bool :=
  lowerChars a == lowerChars b ++ "inherited".data

mutual

/-- Structural equality with the zero value of the value's own type,
modelling `reflect.DeepEqual(v, reflect.Zero(typeof v))`.  Note that in
Go a non-nil empty slice or map is NOT `DeepEqual` to the nil zero
value, so `vslice []` and `vmap []` are not zero. -/
def isZero : GoVal → Bool
  | .vint n => n == 0
  | .vstr s => s == ""
  | .vbool b => !b
  | .vtime t => t == 0
  | .vptrNil => true
  | .vptr _ => false
  | .vsliceNil => true
  | .vslice _ => false
  | .vmapNil => true
  | .vmap _ => false
  | .vstruct fs => fieldsZero fs

/-- All field values of a struct are zero (`reflect.DeepEqual` descends
fieldwise). -/
def fieldsZero : List Fld → Bool
  | [] => true
  | (_, _, v) :: rest => isZero v && fieldsZero rest

end

/-- Emptiness policy, translated from `isEmpty` of the source:
nil chan/func/map/ptr/interface/slice is always empty; with `AllowEmpty`
nothing else is; otherwise a zero-length slice is empty, and any value
structurally equal to the zero value of its type (dereferencing one
level of pointer) is empty. -/
def isEmpty (n : NScopedConfig) (valValue : GoVal) : Bool :=
  match valValue with
  | .vptrNil => true
  | .vsliceNil => true
  | .vmapNil => true
  | v =>
    if n.AllowEmpty then false
    else
      match v with
      | .vslice xs => xs.isEmpty
      | .vptr p => isZero p
      | v => isZero v

/-- Kind discriminator used to model Go assignability: `base.Set(pool)`
succeeds exactly when the types are identical; since the engine only
merges values of one record type, we track the reflect kind (and field
names for structs).  Pointer/slice/map element types are not tracked:
the engine never mixes two distinct record types in one merge. -/
def kindIdx : GoVal → Nat
  | .vint _ => 0
  | .vstr _ => 1
  | .vbool _ => 2
  | .vtime _ => 3
  | .vptrNil | .vptr _ => 4
  | .vsliceNil | .vslice _ => 5
  | .vmapNil | .vmap _ => 6
  | .vstruct _ => 7

/-- Field names of a struct value. -/
def fldNames : List Fld → List String
  | [] => []
  | (nm, _, _) :: rest => nm :: fldNames rest

/-- Assignability test backing `reflect.Value.Set` in the model (see
`kindIdx`). -/
def tyEq (a b : GoVal) : Bool :=
  match a, b with
  | .vstruct fs, .vstruct gs => fldNames fs == fldNames gs
  | a, b => kindIdx a == kindIdx b

/-- Result of one `mergeIntoInherited` invocation: the (possibly
partially) updated base value, the named return `merged`, and the named
return `err`. -/
structure MergeOut where
  base : GoVal
  merged : Bool
  err : Option String

/-- Error message produced by the `recover` in the default branch of
`mergeIntoInherited` (`fmt.Errorf("error trying to set field: %s", r)`;
the panic payload `r` from `reflect.Set` is abstracted). -/
def mergeSetErr : String := "error trying to set field: reflect.Set"

/-- Lookup in an association-list map (`base.MapIndex`); the merge only
ever builds maps with distinct keys, for which the association list is a
faithful picture of a Go map. -/
def mapGet : List (String × GoVal) → String → Option GoVal
  | [], _ => none
  | e :: rest, k => if e.1 == k then some e.2 else mapGet rest k

/-- Insert or overwrite a key (`base.SetMapIndex(k, v)` with valid `v`). -/
def mapSet : List (String × GoVal) → String → GoVal → List (String × GoVal)
  | [], k, v => [(k, v)]
  | e :: rest, k, v =>
    if e.1 == k then (k, v) :: rest else e :: mapSet rest k v

/-- Delete a key (`base.SetMapIndex(k, reflect.Value{})`). -/
def mapDel : List (String × GoVal) → String → List (String × GoVal)
  | [], _ => []
  | e :: rest, k =>
    if e.1 == k then mapDel rest k else e :: mapDel rest k

/-- Iteration of the `reflect.Map` branch of `mergeIntoInherited` over
the override map's entries: a non-empty override value is inserted
(materialising the base map if it was nil), an empty one is a tombstone
deleting the key (a no-op on a still-nil base map). -/
def mergeMapEntries (n : NScopedConfig) :
    List (String × GoVal) → Option (List (String × GoVal)) → Bool →
      Option (List (String × GoVal)) × Bool
  | [], st, m => (st, m)
  | (k, poolVal) :: rest, st, m =>
    if isEmpty n poolVal then
      mergeMapEntries n rest (st.map fun l => mapDel l k) m
    else
      mergeMapEntries n rest (some (mapSet (st.getD []) k poolVal)) true

/-- Rebuild a map `GoVal` from the optional entry list (`none` = nil
map). -/
def mkMapVal : Option (List (String × GoVal)) → GoVal
  | none => .vmapNil
  | some l => .vmap l

/-- The `reflect.Map` branch of `mergeIntoInherited`.  `pool.MapKeys()`
on a non-map value panics with no enclosing recover (`none`);
this cannot happen for the same-typed values the engine merges. -/
def mergeMapVal (n : NScopedConfig) (bm : Option (List (String × GoVal)))
    (pool : GoVal) : Option MergeOut :=
  match pool with
  | .vmapNil => some ⟨mkMapVal bm, false, none⟩
  | .vmap pm =>
    let r := mergeMapEntries n pm bm false
    some ⟨mkMapVal r.1, r.2, none⟩
  | _ => none

/-- Companion-flag write of `mergeIntoInherited`: if the struct declares
exactly one field whose lower-cased name is the merged field's name
followed by "inherited" (`FieldByNameFunc` requires a unique match) and
that field has `reflect.Bool` kind, write `b` into it.  Writing to an
unexported companion would panic with no recover (`none`). -/
def companionWrite (st : List Fld) (nm : String) (b : Bool) :
    Option (List Fld) :=
  let ms := (List.range st.length).filter fun j =>
    match st.get? j with
    | some f => isCompanionName f.1 nm
    | none => false
  match ms with
  | [j] =>
    match st.get? j with
    | some (nm2, ex2, .vbool _) =>
      if ex2 then some (st.set j (nm2, ex2, .vbool b)) else none
    | _ => some st
  | _ => some st

/-- One pass of the field loop of the `reflect.Struct` branch of
`mergeIntoInherited`, processing indices `i, i+1, ...` for `fuel`
steps over the current field list `st`.  `recs` holds the precomputed
recursive merge results for the original base/pool field pairs (the
value at index `i` is still the original one when the loop reaches it:
earlier steps only write their own index and companion indices, and
companion-named fields are skipped).  `m` accumulates the named return
`merged`. -/
def mergeStructFields (n : NScopedConfig) (setInherited : Bool)
    (ps : List Fld) (recs : List (Option MergeOut)) :
    Nat → Nat → List Fld → Bool →
      Option (List Fld × Bool × Option String)
  | 0, _, st, m => some (st, m, none)
  | fuel + 1, i, st, m =>
    match st.get? i with
    | none => mergeStructFields n setInherited ps recs fuel (i + 1) st m
    | some (nm, ex, _f1) =>
      if nameEndsInherited nm then
        mergeStructFields n setInherited ps recs fuel (i + 1) st m
      else if !ex then
        mergeStructFields n setInherited ps recs fuel (i + 1) st m
      else
        match ps.get? i with
        | none => none
        | some (_, _, f2) =>
          if n.ShallowMerge then
            if !(isEmpty n f2) then
              match st.get? i with
              | some (nm1, ex1, f1) =>
                if tyEq f1 f2 then
                  mergeStructFields n setInherited ps recs fuel (i + 1)
                    (st.set i (nm1, ex1, f2)) true
                else none
              | none => none
            else
              mergeStructFields n setInherited ps recs fuel (i + 1) st m
          else
            match recs.get? i with
            | none => none
            | some none => none
            | some (some r) =>
              let st1 := st.set i (nm, ex, r.base)
              match r.err with
              | some e => some (st1, m, some e)
              | none =>
                if setInherited then
                  match companionWrite st1 nm (!r.merged) with
                  | none => none
                  | some st2 =>
                    mergeStructFields n setInherited ps recs fuel (i + 1)
                      st2 (m || r.merged)
                else
                  mergeStructFields n setInherited ps recs fuel (i + 1)
                    st1 (m || r.merged)

mutual

/-- Translation of `mergeIntoInherited(base, pool, setInherited)`.
The result's `base` component is the final value of the destination
(the Go function mutates `base` in place), `merged` and `err` are the
named returns.  `none` models an unrecovered panic (process abort),
which is unreachable for the same-typed values the engine merges. -/
def mergeIntoInherited (n : NScopedConfig) :
    GoVal → GoVal → Bool → Option MergeOut
  | .vtime t, pool, _ =>
    -- the time.Time special case inside the reflect.Struct branch:
    -- replaced wholesale when the override is non-empty; note the Go
    -- code does NOT set `merged` here.
    if isEmpty n pool then some ⟨.vtime t, false, none⟩
    else
      match pool with
      | .vtime t2 => some ⟨.vtime t2, false, none⟩
      | _ => none
  | .vstruct bs, pool, setInherited =>
    match pool with
    | .vstruct ps =>
      match mergeStructFields n setInherited ps
          (mergeFieldsZip n setInherited bs ps) bs.length 0 bs false with
      | none => none
      | some r => some ⟨.vstruct r.1, r.2.1, r.2.2⟩
    | _ => none
  | .vmapNil, pool, _ => mergeMapVal n none pool
  | .vmap m, pool, _ => mergeMapVal n (some m) pool
  | b, pool, _ =>
    -- default branch (scalars, strings, bools, pointers, slices):
    -- override replaces base iff non-empty; an unassignable set panics,
    -- is recovered, and surfaces as `err` with `merged` already true.
    if isEmpty n pool then some ⟨b, false, none⟩
    else if tyEq b pool then some ⟨pool, true, none⟩
    else some ⟨b, true, some mergeSetErr⟩

/-- Recursive merge results for the pairs `(base.Field(i),
pool.Field(i))`, precomputed in order (the loop in the Go code reaches
field `i` before any step has written to it, so the original base field
value is the one merged). -/
def mergeFieldsZip (n : NScopedConfig) (setInherited : Bool) :
    List Fld → List Fld → List (Option MergeOut)
  | [], _ => []
  | _ :: _, [] => []
  | (_, _, v) :: bs, (_, _, p) :: ps =>
    mergeIntoInherited n v p setInherited :: mergeFieldsZip n setInherited bs ps

end

/-- Translation of `mergeInto`: merge with inheritance tracking. -/
def mergeInto (n : NScopedConfig) (base pool : GoVal) : Option MergeOut :=
  mergeIntoInherited n base pool true

/-! Store model.  The engine talks to a mongo collection of documents
`{_id: scope, val: <bson of the record>}` through `n.collection()`.
We model the collection as an association list from scope id to the
stored record value, with bson (un)marshalling assumed faithful.
Connection and I/O errors are not modelled; mongo's `ErrNotFound` is the
`none` lookup result. -/

/-- The persisted collection: one entry per scope id
(`nScopedConfigEntry`). -/
abbrev Store : Type := List (String × GoVal)

/-- `coll.FindId(id).One(&entry)`: the stored value at a scope, if any. -/
def storeFind : Store → String → Option GoVal
  | [], _ => none
  | e :: rest, k => if e.1 == k then some e.2 else storeFind rest k

/-- `coll.UpsertId(id, doc)`: replace or create the entry at a scope. -/
def storeUpsert : Store → String → GoVal → Store
  | [], k, v => [(k, v)]
  | e :: rest, k, v =>
    if e.1 == k then (k, v) :: rest else e :: storeUpsert rest k v

/-- `coll.RemoveId(id)`: drop the entry at a scope. -/
def storeRemove : Store → String → Store
  | [], _ => []
  | e :: rest, k =>
    if e.1 == k then storeRemove rest k else e :: storeRemove rest k

mutual

/-- Zero value of a value's type (`reflect.New(typ)`'s pointee);
derivable from the value because `GoVal` carries the shape. -/
def zeroOf : GoVal → GoVal
  | .vint _ => .vint 0
  | .vstr _ => .vstr ""
  | .vbool _ => .vbool false
  | .vtime _ => .vtime 0
  | .vptrNil | .vptr _ => .vptrNil
  | .vsliceNil | .vslice _ => .vsliceNil
  | .vmapNil | .vmap _ => .vmapNil
  | .vstruct fs => .vstruct (zeroFields fs)

/-- Zero values of a field list. -/
def zeroFields : List Fld → List Fld
  | [] => []
  | (nm, ex, v) :: rest => (nm, ex, zeroOf v) :: zeroFields rest

end

/-- Does the value have `reflect.Struct` kind?  (`time.Time` is a Go
struct.) -/
def isStructKind : GoVal → Bool
  | .vstruct _ => true
  | .vtime _ => true
  | _ => false

/-- Translation of `Save`: persist the value verbatim at the scope; a
non-struct value is rejected. -/
def Save (st : Store) (pool : String) (val : GoVal) : Except String Store :=
  if isStructKind val then .ok (storeUpsert st pool val)
  else .error "a struct type is required as value"

/-- Translation of `SaveBase`. -/
def SaveBase (st : Store) (val : GoVal) : Except String Store :=
  Save st "" val

/-- Translation of `SaveMerge`: load the current entry (zero value when
absent), merge `val` on top WITHOUT inheritance tracking, persist the
result. -/
def SaveMerge (n : NScopedConfig) (st : Store) (pool : String)
    (val : GoVal) : Except String Store :=
  if !(isStructKind val) then .error "received object must be a struct"
  else
    let previousValue := (storeFind st pool).getD (zeroOf val)
    match mergeIntoInherited n previousValue val false with
    | none => .error "unrecovered panic"
    | some r =>
      match r.err with
      | some e => .error e
      | none => Save st pool r.base

/-- Core of `LoadWithBase` after the argument checks: fetch the default
entry (scope "") into the base, return it directly for the base scope,
otherwise rebuild a fresh copy of the default layer, fetch the pool
entry (absorbing not-found into the out argument's current value,
which the callers pass zeroed) and merge it onto the default copy WITH
inheritance tracking.  Note the Go code rebuilds `baseCopy` from the
stored default document (or a zero value), not from the caller-supplied
base. -/
def loadCore (n : NScopedConfig) (st : Store) (pool : String)
    (base0 : GoVal) (outInit : GoVal) : Except String GoVal :=
  let dflt := storeFind st ""
  let baseValue := dflt.getD base0
  if pool == "" then .ok baseValue
  else
    let baseCopy :=
      match dflt with
      | some d => d
      | none => zeroOf base0
    let poolVal := (storeFind st pool).getD outInit
    match mergeInto n baseCopy poolVal with
    | none => .error "unrecovered panic"
    | some r =>
      match r.err with
      | some e => .error e
      | none => .ok r.base

/-- Translation of `LoadWithBase(pool, baseVal, poolVal)`.  `outInit` is
the current pointee of the out argument (zero-valued for fresh loads);
`baseArg` is the optional caller-supplied base layer. -/
def LoadWithBase (n : NScopedConfig) (st : Store) (pool : String)
    (baseArg : Option GoVal) (outInit : GoVal) : Except String GoVal :=
  if !(isStructKind outInit) then
    .error "received object must be a pointer to a struct"
  else
    match baseArg with
    | none => loadCore n st pool (zeroOf outInit) outInit
    | some b =>
      if !(tyEq b outInit) then .error "received object must the same type"
      else loadCore n st pool b outInit

/-- Translation of `Load(pool, poolVal)`. -/
def Load (n : NScopedConfig) (st : Store) (pool : String)
    (outInit : GoVal) : Except String GoVal :=
  LoadWithBase n st pool none outInit

/-- Translation of `LoadBase(poolVal)`. -/
def LoadBase (n : NScopedConfig) (st : Store) (outInit : GoVal) :
    Except String GoVal :=
  LoadWithBase n st "" none outInit

/-- Translation of `Remove`: `coll.RemoveId(pool)`; mongo's not-found
error is returned to the caller unchanged. -/
def Remove (st : Store) (pool : String) : Except String Store :=
  if (storeFind st pool).isSome then .ok (storeRemove st pool)
  else .error "not found"

/-- Field lookup in a field list by case-insensitive name (bson keys
are the lower-cased Go field names). -/
def fieldsGet : List Fld → String → Option GoVal
  | [], _ => none
  | f :: rest, nm =>
    if sameLowerName f.1 nm then some f.2.2 else fieldsGet rest nm

/-- Overwrite or append a field in a field list by case-insensitive
name. -/
def fieldsSet : List Fld → String → GoVal → List Fld
  | [], nm, v => [(nm, true, v)]
  | f :: rest, nm, v =>
    if sameLowerName f.1 nm then (f.1, f.2.1, v) :: rest
    else f :: fieldsSet rest nm v

/-- Drop a field from a field list by case-insensitive name. -/
def fieldsUnset : List Fld → String → List Fld
  | [], _ => []
  | f :: rest, nm =>
    if sameLowerName f.1 nm then fieldsUnset rest nm
    else f :: fieldsUnset rest nm

/-- Field lookup inside a stored document by lower-cased bson key
(`"val." + strings.ToLower(name)`). -/
def valFieldGet (doc : GoVal) (nm : String) : Option GoVal :=
  match doc with
  | .vstruct fs => fieldsGet fs nm
  | _ => none

/-- Mongo `$set "val.name"` on a stored document: overwrite the field if
present (bson keys are lower-cased), add it otherwise. -/
def valFieldSet (doc : GoVal) (nm : String) (v : GoVal) : GoVal :=
  match doc with
  | .vstruct fs => .vstruct (fieldsSet fs nm v)
  | d => d

/-- Mongo `$unset "val.name"`: drop the field if present. -/
def valFieldUnset (doc : GoVal) (nm : String) : GoVal :=
  match doc with
  | .vstruct fs => .vstruct (fieldsUnset fs nm)
  | d => d

/-- Translation of `RemoveField`: `$unset` the field path; a missing
entry (mongo not-found) or a missing field is success. -/
def RemoveField (st : Store) (pool name : String) : Except String Store :=
  match storeFind st pool with
  | some doc => .ok (storeUpsert st pool (valFieldUnset doc name))
  | none => .ok st

/-- Translation of `SetField`: unconditional `$set` of the field at the
scope, creating the entry when absent (mongo upsert by `_id`). -/
def SetField (st : Store) (pool name : String) (value : GoVal) : Store :=
  match storeFind st pool with
  | some doc => storeUpsert st pool (valFieldSet doc name value)
  | none => storeUpsert st pool (.vstruct [(name, true, value)])

/-- Translation of `SetFieldAtomic`: one conditional upsert whose
selector requires the field to be the empty string or absent.  When the
entry exists and the field is occupied, the selector matches nothing,
mongo attempts an insert, collides on `_id` (duplicate key) and the
call reports `applied = false` with no error.  Returns the new store
and the `applied` flag. -/
def SetFieldAtomic (st : Store) (pool name : String) (value : GoVal) :
    Store × Bool :=
  match storeFind st pool with
  | none =>
    (storeUpsert st pool (.vstruct [(name, true, value)]), true)
  | some doc =>
    match valFieldGet doc name with
    | none => (storeUpsert st pool (valFieldSet doc name value), true)
    | some (.vstr "") => (storeUpsert st pool (valFieldSet doc name value), true)
    | some _ => (st, false)

/-! Spec-side characterisation of the emptiness policy (written from the
specification's wording, to be compared with the code's `isEmpty`). -/

/-- Spec wording: "v is a nil pointer/slice/map/function/channel/
interface value". -/
def isNilContainerSpec : GoVal → Bool
  | .vptrNil => true
  | .vsliceNil => true
  | .vmapNil => true
  | _ => false

/-- Spec wording: "v structurally equals the zero value of its type
(dereferencing one level of pointer indirection, and counting a non-nil
zero-length slice as empty)". -/
def structurallyZeroSpec : GoVal → Bool
  | .vptr p => isZero p
  | .vslice xs => xs.isEmpty
  | v => isZero v

/-- Spec wording of the whole policy: empty iff nil container, or —
only when AllowEmpty is false — structurally zero. -/
def isEmptySpec (allowEmpty : Bool) (v : GoVal) : Bool :=
  isNilContainerSpec v || (!allowEmpty && structurallyZeroSpec v)

/-! Concrete engine configurations used in examples. -/

/-- Deep merge, `AllowEmpty = false`. -/
def deepCfg : NScopedConfig := ⟨"conf", [], false, false⟩

/-- Deep merge, `AllowEmpty = true`. -/
def deepAllowEmptyCfg : NScopedConfig := ⟨"conf", [], true, false⟩

/-- Shallow merge, `AllowEmpty = false`. -/
def shallowCfg : NScopedConfig := ⟨"conf", [], false, true⟩

/-- Single-field record `{X: 0}` from the specification's
`AllowEmpty` example. -/
def recX0 : GoVal := .vstruct [("X", true, .vint 0)]

/-! Association-list lemmas for the map branch. -/

/-- Map lookup on a map-kind `GoVal` (a nil map has no keys). -/
def goMapGet : GoVal → String → Option GoVal
  | .vmap l, k => mapGet l k
  | _, _ => none

/-- Map lookup through the optional entry list used while merging. -/
def optMapGet : Option (List (String × GoVal)) → String → Option GoVal
  | none, _ => none
  | some l, k => mapGet l k

theorem mapGet_eq_none_of_not_mem (l : List (String × GoVal)) (k : String)
    (h : k ∉ l.map Prod.fst) : mapGet l k = none := by
  induction l with
  | nil => rfl
  | cons e rest ih =>
    simp only [List.map_cons, List.mem_cons, not_or] at h
    have he : (e.1 == k) = false := beq_eq_false_iff_ne.mpr fun hc => h.1 hc.symm
    simp [mapGet, he, ih h.2]

theorem mapGet_set_self (l : List (String × GoVal)) (k : String) (v : GoVal) :
    mapGet (mapSet l k v) k = some v := by
  induction l with
  | nil => simp [mapGet, mapSet]
  | cons e rest ih =>
    by_cases he : (e.1 == k) = true
    · simp [mapGet, mapSet, he]
    · simp only [Bool.not_eq_true] at he
      simp [mapGet, mapSet, he, ih]

theorem mapGet_set_ne (l : List (String × GoVal)) (k k1 : String) (v : GoVal)
    (h : k1 ≠ k) : mapGet (mapSet l k v) k1 = mapGet l k1 := by
  have hk : (k == k1) = false := beq_eq_false_iff_ne.mpr fun hc => h hc.symm
  induction l with
  | nil => simp [mapGet, mapSet, hk]
  | cons e rest ih =>
    by_cases he : (e.1 == k) = true
    · have he2 : e.1 = k := by simpa using he
      simp [mapGet, mapSet, he, he2, hk]
    · simp only [Bool.not_eq_true] at he
      cases htest : (e.1 == k1) <;> simp [mapGet, mapSet, he, htest, ih]

theorem mapGet_del_self (l : List (String × GoVal)) (k : String) :
    mapGet (mapDel l k) k = none := by
  induction l with
  | nil => rfl
  | cons e rest ih =>
    by_cases he : (e.1 == k) = true
    · simp [mapDel, he, ih]
    · simp only [Bool.not_eq_true] at he
      simp [mapGet, mapDel, he, ih]

theorem mapGet_del_ne (l : List (String × GoVal)) (k k1 : String)
    (h : k1 ≠ k) : mapGet (mapDel l k) k1 = mapGet l k1 := by
  induction l with
  | nil => rfl
  | cons e rest ih =>
    by_cases he : (e.1 == k) = true
    · have he2 : e.1 = k := by simpa using he
      have h1 : (e.1 == k1) = false := by
        rw [he2]
        exact beq_eq_false_iff_ne.mpr fun hc => h hc.symm
      simp [mapGet, mapDel, he, h1, ih]
    · simp only [Bool.not_eq_true] at he
      cases htest : (e.1 == k1) <;> simp [mapGet, mapDel, he, htest, ih]

/-- Relate `mkMapVal` and the two lookup helpers. -/
theorem goMapGet_mkMapVal (o : Option (List (String × GoVal))) (k : String) :
    goMapGet (mkMapVal o) k = optMapGet o k := by
  cases o <;> rfl

/-- The `merged` flag produced by the map branch: true iff some override
entry carries a non-empty value. -/
theorem mergeMapEntries_merged (n : NScopedConfig) :
    ∀ (pl : List (String × GoVal)) (st : Option (List (String × GoVal)))
      (m : Bool),
      (mergeMapEntries n pl st m).2 = (m || pl.any fun e => !(isEmpty n e.2)) := by
  intro pl
  induction pl with
  | nil => intro st m; simp [mergeMapEntries]
  | cons e rest ih =>
    intro st m
    obtain ⟨k, pv⟩ := e
    by_cases h : isEmpty n pv = true
    · simp [mergeMapEntries, h, ih]
    · simp only [Bool.not_eq_true] at h
      simp [mergeMapEntries, h, ih]

/-- Pointwise description of the map branch: a key with a non-empty
override value maps to that value, a key with an empty override value is
absent (tombstone), and a key the override does not mention keeps its
base binding. -/
theorem mergeMapEntries_get (n : NScopedConfig) :
    ∀ (pl : List (String × GoVal)) (st : Option (List (String × GoVal)))
      (m : Bool) (k : String),
      (pl.map Prod.fst).Nodup →
      optMapGet (mergeMapEntries n pl st m).1 k =
        (match mapGet pl k with
         | some pv => if isEmpty n pv then none else some pv
         | none => optMapGet st k) := by
  intro pl
  induction pl with
  | nil => intro st m k _; rfl
  | cons e rest ih =>
    intro st m k hnd
    obtain ⟨k0, pv⟩ := e
    simp only [List.map_cons, List.nodup_cons] at hnd
    obtain ⟨hk0, hnd2⟩ := hnd
    by_cases hky : (k0 == k) = true
    · have hkk : k0 = k := by simpa using hky
      subst hkk
      have hrest : mapGet rest k0 = none := by
        apply mapGet_eq_none_of_not_mem
        intro hmem
        exact hk0 (by simpa using hmem)
      by_cases hemp : isEmpty n pv = true
      · simp only [mergeMapEntries, hemp, if_true]
        rw [ih _ m k0 hnd2]
        simp only [hrest]
        simp only [mapGet, hky, if_pos rfl]
        simp only [hemp, if_true]
        cases st with
        | none => rfl
        | some l => simpa [optMapGet] using mapGet_del_self l k0
      · simp only [Bool.not_eq_true] at hemp
        simp only [mergeMapEntries, hemp, Bool.false_eq_true, if_false]
        rw [ih _ true k0 hnd2]
        rw [hrest]
        have hcons : mapGet ((k0, pv) :: rest) k0 = some pv := by
          simp [mapGet]
        rw [hcons]
        show optMapGet (some (mapSet (st.getD []) k0 pv)) k0 =
          if isEmpty n pv = true then none else some pv
        rw [if_neg (by simp [hemp])]
        simpa [optMapGet] using mapGet_set_self (st.getD []) k0 pv
    · have hkne : k ≠ k0 := by
        intro hc
        exact absurd (by simp [hc]) hky
      have hhead : mapGet ((k0, pv) :: rest) k = mapGet rest k := by
        simp [mapGet, hky]
      by_cases hemp : isEmpty n pv = true
      · simp only [mergeMapEntries, hemp, if_true]
        rw [ih _ m k hnd2]
        rw [hhead]
        cases hm : mapGet rest k with
        | some pv2 => rfl
        | none =>
          cases st with
          | none => rfl
          | some l => simpa [optMapGet] using mapGet_del_ne l k0 k hkne
      · simp only [Bool.not_eq_true] at hemp
        simp only [mergeMapEntries, hemp, Bool.false_eq_true, if_false]
        rw [ih _ true k hnd2]
        rw [hhead]
        cases hm : mapGet rest k with
        | some pv2 => rfl
        | none =>
          have := mapGet_set_ne (st.getD []) k0 k pv hkne
          cases st with
          | none => simpa [optMapGet, mapGet] using this
          | some l => simpa [optMapGet] using this

/-- Claim C1 — in the merged result of a map-valued field, a key whose
override value is non-empty is bound to the override value, a key whose
override value is empty is absent even when the base bound it
(tombstone deletion), and other keys keep their base binding; the
specification's example computes as stated. -/
theorem C1_map_tombstone_deletion :
    (∀ (n : NScopedConfig) (si : Bool) (bl pl : List (String × GoVal))
        (k : String),
        (pl.map Prod.fst).Nodup →
        ∃ r : MergeOut,
          mergeIntoInherited n (.vmap bl) (.vmap pl) si = some r ∧
          r.err = none ∧
          goMapGet r.base k =
            (match mapGet pl k with
             | some pv => if isEmpty n pv then none else some pv
             | none => mapGet bl k) ∧
          (∀ pv, mapGet pl k = some pv → isEmpty n pv = true →
            goMapGet r.base k = none)) ∧
    mergeIntoInherited deepCfg (.vmap [("a", .vint 1), ("b", .vint 2)])
        (.vmap [("a", .vint 0), ("c", .vint 3)]) true =
      some ⟨.vmap [("b", .vint 2), ("c", .vint 3)], true, none⟩ := by
  refine ⟨fun n si bl pl k hnd => ?_, rfl⟩
  refine ⟨_, rfl, rfl, ?_, ?_⟩
  · rw [goMapGet_mkMapVal]
    simpa [optMapGet] using mergeMapEntries_get n pl (some bl) false k hnd
  · intro pv hpv hemp
    rw [goMapGet_mkMapVal]
    rw [mergeMapEntries_get n pl (some bl) false k hnd]
    simp [hpv, hemp]

/-- Witness applying the claim theorem at a concrete input, discharging
its hypotheses there. -/
theorem C1_map_tombstone_deletion_witness :
    ([("a", GoVal.vint 0)].map Prod.fst).Nodup ∧
    ∃ r : MergeOut,
      mergeIntoInherited deepCfg (.vmap [("a", .vint 1)])
          (.vmap [("a", .vint 0)]) true = some r ∧
      r.err = none ∧
      goMapGet r.base "a" =
        (match mapGet [("a", GoVal.vint 0)] "a" with
         | some pv => if isEmpty deepCfg pv then none else some pv
         | none => mapGet [("a", GoVal.vint 1)] "a") ∧
      (∀ pv, mapGet [("a", GoVal.vint 0)] "a" = some pv →
        isEmpty deepCfg pv = true → goMapGet r.base "a" = none) :=
  ⟨by simp, C1_map_tombstone_deletion.1 deepCfg true [("a", .vint 1)]
    [("a", .vint 0)] "a" (by simp)⟩

/-- Claim C10 — the map branch reports a field as overridden exactly
when some override entry carries a non-empty value; an override map of
tombstones only is reported as NOT overridden, so inheritance tracking
sets the companion flag to true even though the tombstones changed the
map (concrete record shown). -/
theorem C10_tombstone_only_map_not_overridden :
    (∀ (n : NScopedConfig) (si : Bool) (bl pl : List (String × GoVal)),
        ∃ r : MergeOut,
          mergeIntoInherited n (.vmap bl) (.vmap pl) si = some r ∧
          r.merged = (pl.any fun e => !(isEmpty n e.2)) ∧ r.err = none) ∧
    mergeIntoInherited deepCfg
        (.vstruct [("M", true, .vmap [("a", .vint 1)]),
                   ("MInherited", true, .vbool false)])
        (.vstruct [("M", true, .vmap [("a", .vint 0)]),
                   ("MInherited", true, .vbool false)]) true =
      some ⟨.vstruct [("M", true, .vmap []),
                      ("MInherited", true, .vbool true)], false, none⟩ ∧
    GoVal.vmap [] ≠ GoVal.vmap [("a", .vint 1)] := by
  refine ⟨fun n si bl pl => ?_, rfl, by simp⟩
  exact ⟨_, rfl, by simpa using mergeMapEntries_merged n pl (some bl) false, rfl⟩

/-- Values handled by the default (leaf) branch of the merge switch:
scalars, strings, booleans, pointers and slices. -/
def leafKind : GoVal → Bool
  | .vint _ | .vstr _ | .vbool _ => true
  | .vptrNil | .vptr _ => true
  | .vsliceNil | .vslice _ => true
  | _ => false

/-- Behaviour of the default branch on leaf values: a non-empty override
replaces the base, an empty one leaves it; `merged` records which. -/
theorem mergeLeaf (n : NScopedConfig) (si : Bool) (b p : GoVal)
    (hb : leafKind b = true) (ht : tyEq b p = true) :
    mergeIntoInherited n b p si =
      some (if isEmpty n p then ⟨b, false, none⟩ else ⟨p, true, none⟩) := by
  by_cases hp : isEmpty n p = true <;>
    cases b <;> simp_all [mergeIntoInherited, leafKind]

/-- Record `{Sub: {X:1, Y:2}}` of the specification's shallow/deep
example. -/
def subBase : GoVal := .vstruct [("X", true, .vint 1), ("Y", true, .vint 2)]

/-- Override `{Sub: {X:0, Y:3}}` of the same example. -/
def subPool : GoVal := .vstruct [("X", true, .vint 0), ("Y", true, .vint 3)]

/-- Claim C6 — in shallow mode a field is replaced wholesale iff the
override's field value is non-empty as a unit, else the base field is
kept whole (shown for an arbitrary one-field record and arbitrary field
values); deep mode recurses per leaf, as the specification's example
shows: `Sub={X:1,Y:2}` merged with `{X:0,Y:3}` gives `{X:0,Y:3}` in
shallow mode and `{X:1,Y:3}` in deep mode. -/
theorem C6_shallow_replaces_whole_field :
    (∀ (n : NScopedConfig) (si : Bool) (nm : String) (b p : GoVal),
        n.ShallowMerge = true → nameEndsInherited nm = false →
        tyEq b p = true →
        mergeIntoInherited n (.vstruct [(nm, true, b)])
            (.vstruct [(nm, true, p)]) si =
          some ⟨.vstruct [(nm, true, if isEmpty n p then b else p)],
            !(isEmpty n p), none⟩) ∧
    mergeIntoInherited shallowCfg (.vstruct [("Sub", true, subBase)])
        (.vstruct [("Sub", true, subPool)]) true =
      some ⟨.vstruct [("Sub", true, subPool)], true, none⟩ ∧
    mergeIntoInherited deepCfg (.vstruct [("Sub", true, subBase)])
        (.vstruct [("Sub", true, subPool)]) true =
      some ⟨.vstruct [("Sub", true,
          .vstruct [("X", true, .vint 1), ("Y", true, .vint 3)])],
        true, none⟩ := by
  refine ⟨fun n si nm b p hsh hnm ht => ?_, rfl, rfl⟩
  by_cases hp : isEmpty n p = true <;>
    simp [mergeIntoInherited, mergeStructFields, hsh, hnm, ht, hp]

/-- Witness applying the claim theorem at a concrete input, discharging
its hypotheses there. -/
theorem C6_shallow_replaces_whole_field_witness :
    shallowCfg.ShallowMerge = true ∧
    nameEndsInherited "Sub" = false ∧
    tyEq subBase subPool = true ∧
    mergeIntoInherited shallowCfg (.vstruct [("Sub", true, subBase)])
        (.vstruct [("Sub", true, subPool)]) true =
      some ⟨.vstruct [("Sub", true,
          if isEmpty shallowCfg subPool then subBase else subPool)],
        !(isEmpty shallowCfg subPool), none⟩ :=
  ⟨rfl, by decide, rfl,
    C6_shallow_replaces_whole_field.1 shallowCfg true "Sub" subBase subPool
      rfl (by decide) rfl⟩

/-- Two-field record `{Foo: v, FooInherited: b}` used for the
inheritance-flag claims. -/
def fooRec (v : GoVal) (b : Bool) : GoVal :=
  .vstruct [("Foo", true, v), ("FooInherited", true, .vbool b)]

/-- Counterexample to claim C3 as stated: for a `time.Time`-valued field
`Foo`, a non-empty override replaces the value wholesale, yet the merge
leaves `merged` false for that field and writes `FooInherited = true`,
not false as the claim requires (the time branch of `mergeIntoInherited`
never sets `merged`). -/
theorem C3_counterexample :
    isEmpty deepCfg (.vtime 5) = false ∧
    mergeIntoInherited deepCfg (fooRec (.vtime 1) false)
        (fooRec (.vtime 5) false) true =
      some ⟨fooRec (.vtime 5) true, false, none⟩ ∧
    GoVal.vbool true ≠ GoVal.vbool false :=
  ⟨rfl, rfl, by simp⟩

/-- Claim C3 (amended) — in a deep merge with inheritance tracking, for
a field `Foo` of leaf kind (scalar, string, bool, pointer or slice) with
a declared boolean companion `FooInherited`: an empty override leaves
`Foo` at the base value and sets `FooInherited := true`; a non-empty
override replaces `Foo` and sets `FooInherited := false`.  For a
`time.Time`-valued `Foo` the value is still replaced wholesale but
`FooInherited` is set to true (see the counterexample), and for record
or map-valued `Foo` the flag reflects whether some component was
actually overridden.  With tracking disabled the companion field is
neither consulted nor written: it keeps the base's value, whatever the
override's flag was. -/
theorem C3_inheritance_flag_amended :
    (∀ (n : NScopedConfig) (bv pv : GoVal) (bb pb : Bool),
        n.ShallowMerge = false → leafKind bv = true → tyEq bv pv = true →
        mergeIntoInherited n (fooRec bv bb) (fooRec pv pb) true =
          some ⟨fooRec (if isEmpty n pv then bv else pv) (isEmpty n pv),
            !(isEmpty n pv), none⟩) ∧
    (∀ (n : NScopedConfig) (bt pt : Int) (bb pb : Bool),
        n.ShallowMerge = false → isEmpty n (.vtime pt) = false →
        mergeIntoInherited n (fooRec (.vtime bt) bb)
            (fooRec (.vtime pt) pb) true =
          some ⟨fooRec (.vtime pt) true, false, none⟩) ∧
    (∀ (n : NScopedConfig) (bv pv : GoVal) (bb pb : Bool),
        n.ShallowMerge = false → leafKind bv = true → tyEq bv pv = true →
        mergeIntoInherited n (fooRec bv bb) (fooRec pv pb) false =
          some ⟨fooRec (if isEmpty n pv then bv else pv) bb,
            !(isEmpty n pv), none⟩) := by
  have h1 : nameEndsInherited "Foo" = false := by decide
  have h2 : nameEndsInherited "FooInherited" = true := by decide
  have h3 : isCompanionName "FooInherited" "Foo" = true := by decide
  have h4 : isCompanionName "Foo" "Foo" = false := by decide
  refine ⟨fun n bv pv bb pb hsh hleaf ht => ?_,
    fun n bt pt bb pb hsh hpt => ?_,
    fun n bv pv bb pb hsh hleaf ht => ?_⟩
  · have hrec := mergeLeaf n true bv pv hleaf ht
    by_cases hp : isEmpty n pv = true <;>
      simp [fooRec, mergeIntoInherited, mergeFieldsZip, mergeStructFields,
        companionWrite, hrec, hsh, hp, h1, h2, h3, h4,
        List.range_succ, List.range_zero]
  · simp [fooRec, mergeIntoInherited, mergeFieldsZip, mergeStructFields,
      companionWrite, hsh, hpt, h1, h2, h3, h4,
      List.range_succ, List.range_zero]
  · have hrec := mergeLeaf n false bv pv hleaf ht
    by_cases hp : isEmpty n pv = true <;>
      simp [fooRec, mergeIntoInherited, mergeFieldsZip, mergeStructFields,
        companionWrite, hrec, hsh, hp, h1, h2, h3, h4,
        List.range_succ, List.range_zero]

/-- Witness applying the claim theorem at a concrete input, discharging
its hypotheses there. -/
theorem C3_inheritance_flag_amended_witness :
    deepCfg.ShallowMerge = false ∧ leafKind (.vstr "x") = true ∧
    tyEq (.vstr "x") (.vstr "y") = true ∧
    mergeIntoInherited deepCfg (fooRec (.vstr "x") false)
        (fooRec (.vstr "y") true) true =
      some ⟨fooRec
          (if isEmpty deepCfg (.vstr "y") then .vstr "x" else .vstr "y")
          (isEmpty deepCfg (.vstr "y")),
        !(isEmpty deepCfg (.vstr "y")), none⟩ :=
  ⟨rfl, rfl, rfl,
    C3_inheritance_flag_amended.1 deepCfg (.vstr "x") (.vstr "y") false true
      rfl rfl rfl⟩

/-- Claim C7 — when an override value cannot be assigned into its
destination (type mismatch in the default branch), the merge returns the
descriptive merge error, `merged` already set, and the base value is
kept for that field; inside a record merge the error aborts the field
loop at that level, leaving fields processed earlier applied and later
fields untouched (shown for a 3-field record whose middle field
mismatches, with arbitrary values elsewhere). -/
theorem C7_merge_error_stops_level :
    (∀ (n : NScopedConfig) (si : Bool) (b p : GoVal),
        leafKind b = true → isEmpty n p = false → tyEq b p = false →
        mergeIntoInherited n b p si = some ⟨b, true, some mergeSetErr⟩) ∧
    (∀ (n : NScopedConfig) (si : Bool) (a a1 c c1 : GoVal),
        n.ShallowMerge = false → leafKind a = true → tyEq a a1 = true →
        isEmpty n a1 = false →
        mergeIntoInherited n
            (.vstruct [("A", true, a), ("B", true, .vint 7),
              ("C", true, c)])
            (.vstruct [("A", true, a1), ("B", true, .vstr "boom"),
              ("C", true, c1)]) si =
          some ⟨.vstruct [("A", true, a1), ("B", true, .vint 7),
            ("C", true, c)], true, some mergeSetErr⟩) := by
  have hn1 : nameEndsInherited "A" = false := by decide
  have hn2 : nameEndsInherited "B" = false := by decide
  have hc1 : isCompanionName "A" "A" = false := by decide
  have hc2 : isCompanionName "B" "A" = false := by decide
  have hc3 : isCompanionName "C" "A" = false := by decide
  constructor
  · intro n si b p hb hp ht
    cases b <;> simp_all [mergeIntoInherited, leafKind]
  · intro n si a a1 c c1 hsh hleaf ht hp1
    have hA : mergeIntoInherited n a a1 si = some ⟨a1, true, none⟩ := by
      rw [mergeLeaf n si a a1 hleaf ht]
      simp [hp1]
    have hBne : isEmpty n (.vstr "boom") = false := by
      cases hAE : n.AllowEmpty <;> simp [isEmpty, isZero, hAE]
    have hB : mergeIntoInherited n (.vint 7) (.vstr "boom") si =
        some ⟨.vint 7, true, some mergeSetErr⟩ := by
      simp [mergeIntoInherited, hBne, tyEq, kindIdx]
    cases si <;>
      simp [mergeIntoInherited, mergeFieldsZip, mergeStructFields,
        companionWrite, hA, hB, hBne, tyEq, kindIdx, hsh, hn1, hn2,
        hc1, hc2, hc3, List.range_succ, List.range_zero]

/-- Witness applying the claim theorem at a concrete input, discharging
its hypotheses there. -/
theorem C7_merge_error_stops_level_witness :
    (leafKind (.vint 1) = true ∧ isEmpty deepCfg (.vstr "x") = false ∧
      tyEq (.vint 1) (.vstr "x") = false ∧
      mergeIntoInherited deepCfg (.vint 1) (.vstr "x") true =
        some ⟨.vint 1, true, some mergeSetErr⟩) ∧
    (deepCfg.ShallowMerge = false ∧ leafKind (.vint 1) = true ∧
      tyEq (.vint 1) (.vint 2) = true ∧ isEmpty deepCfg (.vint 2) = false ∧
      mergeIntoInherited deepCfg
          (.vstruct [("A", true, .vint 1), ("B", true, .vint 7),
            ("C", true, .vstr "c")])
          (.vstruct [("A", true, .vint 2), ("B", true, .vstr "boom"),
            ("C", true, .vstr "d")]) true =
        some ⟨.vstruct [("A", true, .vint 2), ("B", true, .vint 7),
          ("C", true, .vstr "c")], true, some mergeSetErr⟩) :=
  ⟨⟨rfl, rfl, rfl,
      C7_merge_error_stops_level.1 deepCfg true (.vint 1) (.vstr "x")
        rfl rfl rfl⟩,
    ⟨rfl, rfl, rfl, rfl,
      C7_merge_error_stops_level.2 deepCfg true (.vint 1) (.vint 2)
        (.vstr "c") (.vstr "d") rfl rfl rfl rfl⟩⟩

/-! Store-level lemmas for the engine operations. -/

theorem sameLowerName_iff (a b : String) :
    sameLowerName a b = true ↔ lowerChars a = lowerChars b := by
  simp [sameLowerName]

theorem sameLowerName_self (a : String) : sameLowerName a a = true := by
  simp [sameLowerName]

theorem storeFind_remove_self (st : Store) (pool : String) :
    storeFind (storeRemove st pool) pool = none := by
  induction st with
  | nil => rfl
  | cons e rest ih =>
    by_cases he : (e.1 == pool) = true
    · simp [storeRemove, he, ih]
    · simp only [Bool.not_eq_true] at he
      simp [storeFind, storeRemove, he, ih]

theorem storeFind_remove_ne (st : Store) (pool k : String) (h : k ≠ pool) :
    storeFind (storeRemove st pool) k = storeFind st k := by
  induction st with
  | nil => rfl
  | cons e rest ih =>
    by_cases he : (e.1 == pool) = true
    · have he2 : e.1 = pool := by simpa using he
      have h1 : (e.1 == k) = false := by
        rw [he2]
        exact beq_eq_false_iff_ne.mpr fun hc => h hc.symm
      simp [storeFind, storeRemove, he, h1, ih]
    · simp only [Bool.not_eq_true] at he
      cases htest : (e.1 == k) <;>
        simp [storeFind, storeRemove, he, htest, ih]

theorem storeFind_upsert_self (st : Store) (k : String) (v : GoVal) :
    storeFind (storeUpsert st k v) k = some v := by
  induction st with
  | nil => simp [storeFind, storeUpsert]
  | cons e rest ih =>
    by_cases he : (e.1 == k) = true
    · simp [storeFind, storeUpsert, he]
    · simp only [Bool.not_eq_true] at he
      simp [storeFind, storeUpsert, he, ih]

theorem storeFind_upsert_ne (st : Store) (k k1 : String) (v : GoVal)
    (h : k1 ≠ k) : storeFind (storeUpsert st k v) k1 = storeFind st k1 := by
  have hk : (k == k1) = false := beq_eq_false_iff_ne.mpr fun hc => h hc.symm
  induction st with
  | nil => simp [storeFind, storeUpsert, hk]
  | cons e rest ih =>
    by_cases he : (e.1 == k) = true
    · have he2 : e.1 = k := by simpa using he
      simp [storeFind, storeUpsert, he, he2, hk]
    · simp only [Bool.not_eq_true] at he
      cases htest : (e.1 == k1) <;>
        simp [storeFind, storeUpsert, he, htest, ih]

theorem fieldsGet_set_self (fs : List Fld) (nm : String) (v : GoVal) :
    fieldsGet (fieldsSet fs nm v) nm = some v := by
  induction fs with
  | nil => simp [fieldsGet, fieldsSet, sameLowerName_self]
  | cons f rest ih =>
    by_cases hf : sameLowerName f.1 nm = true
    · simp [fieldsGet, fieldsSet, hf, sameLowerName_self]
    · simp only [Bool.not_eq_true] at hf
      simp [fieldsGet, fieldsSet, hf, ih]

theorem fieldsGet_unset_self (fs : List Fld) (nm : String) :
    fieldsGet (fieldsUnset fs nm) nm = none := by
  induction fs with
  | nil => rfl
  | cons f rest ih =>
    by_cases hf : sameLowerName f.1 nm = true
    · simp [fieldsUnset, hf, ih]
    · simp only [Bool.not_eq_true] at hf
      simp [fieldsGet, fieldsUnset, hf, ih]

theorem fieldsGet_unset_ne (fs : List Fld) (nm k : String)
    (h : sameLowerName k nm = false) :
    fieldsGet (fieldsUnset fs nm) k = fieldsGet fs k := by
  induction fs with
  | nil => rfl
  | cons f rest ih =>
    by_cases hf : sameLowerName f.1 nm = true
    · have hfk : sameLowerName f.1 k = false := by
        rw [sameLowerName_iff] at hf
        cases hc : sameLowerName f.1 k with
        | false => rfl
        | true =>
          rw [sameLowerName_iff] at hc
          have : sameLowerName k nm = true := by
            rw [sameLowerName_iff, ← hc, ← hf]
          rw [this] at h
          exact absurd h (by simp)
      simp [fieldsGet, fieldsUnset, hf, hfk, ih]
    · simp only [Bool.not_eq_true] at hf
      cases htest : sameLowerName f.1 k <;>
        simp [fieldsGet, fieldsUnset, hf, htest, ih]

/-- Claim C9 — `Remove` on a scope with no stored entry surfaces the
store's not-found as an error while `RemoveField` treats a missing entry
(or missing field) as success; on an existing entry `Remove` deletes the
whole entry (the scope is gone, other scopes untouched) and
`RemoveField` unsets exactly the named field (other fields keep their
values). -/
theorem C9_remove_vs_removefield :
    (∀ (st : Store) (pool name : String),
        storeFind st pool = none →
        Remove st pool = .error "not found" ∧
        RemoveField st pool name = .ok st) ∧
    (∀ (st : Store) (pool : String) (doc : GoVal) (k : String),
        storeFind st pool = some doc →
        Remove st pool = .ok (storeRemove st pool) ∧
        storeFind (storeRemove st pool) pool = none ∧
        (k ≠ pool → storeFind (storeRemove st pool) k = storeFind st k)) ∧
    (∀ (st : Store) (pool name : String) (doc : GoVal) (k : String),
        storeFind st pool = some doc →
        RemoveField st pool name =
          .ok (storeUpsert st pool (valFieldUnset doc name)) ∧
        valFieldGet (valFieldUnset doc name) name = none ∧
        (sameLowerName k name = false →
          valFieldGet (valFieldUnset doc name) k = valFieldGet doc k)) := by
  refine ⟨fun st pool name h => ?_, fun st pool doc k h => ?_,
    fun st pool name doc k h => ?_⟩
  · constructor
    · simp [Remove, h]
    · simp [RemoveField, h]
  · refine ⟨by simp [Remove, h], storeFind_remove_self st pool,
      fun hk => storeFind_remove_ne st pool k hk⟩
  · refine ⟨by simp [RemoveField, h], ?_, fun hk => ?_⟩
    · cases doc <;> simp [valFieldGet, valFieldUnset, fieldsGet_unset_self]
    · cases doc <;> simp [valFieldGet, valFieldUnset, fieldsGet_unset_ne _ _ _ hk]

/-- Witness applying the claim theorem at a concrete input, discharging
its hypotheses there. -/
theorem C9_remove_vs_removefield_witness :
    (storeFind [] "p" = none ∧
      Remove ([] : Store) "p" = .error "not found" ∧
      RemoveField ([] : Store) "p" "f" = .ok []) ∧
    (storeFind [("p", recX0)] "p" = some recX0 ∧
      Remove [("p", recX0)] "p" = .ok (storeRemove [("p", recX0)] "p") ∧
      storeFind (storeRemove [("p", recX0)] "p") "p" = none ∧
      ("q" ≠ "p" → storeFind (storeRemove [("p", recX0)] "p") "q" =
        storeFind [("p", recX0)] "q")) :=
  ⟨⟨rfl, C9_remove_vs_removefield.1 [] "p" "f" rfl⟩,
    ⟨rfl, C9_remove_vs_removefield.2.1 [("p", recX0)] "p" recX0 "q" rfl⟩⟩

/-- Claim C8 — `SetFieldAtomic` applies exactly when the entry is
missing or the field is absent or the empty string; when it applies the
stored entry afterwards carries the new value at that field, and when it
does not apply the store is unchanged and no error is reported. -/
theorem C8_set_field_atomic :
    (∀ (st : Store) (pool name : String) (v : GoVal) (doc : GoVal),
        storeFind st pool = some doc →
        ((SetFieldAtomic st pool name v).2 = true ↔
          valFieldGet doc name = none ∨
          valFieldGet doc name = some (.vstr ""))) ∧
    (∀ (st : Store) (pool name : String) (v : GoVal),
        storeFind st pool = none →
        (SetFieldAtomic st pool name v).2 = true) ∧
    (∀ (st : Store) (pool name : String) (v : GoVal),
        (storeFind st pool = none ∨
          ∃ fs : List Fld, storeFind st pool = some (.vstruct fs)) →
        (SetFieldAtomic st pool name v).2 = true →
        ∃ doc : GoVal,
          storeFind (SetFieldAtomic st pool name v).1 pool = some doc ∧
          valFieldGet doc name = some v) ∧
    (∀ (st : Store) (pool name : String) (v : GoVal),
        (SetFieldAtomic st pool name v).2 = false →
        (SetFieldAtomic st pool name v).1 = st) := by
  refine ⟨fun st pool name v doc h => ?_, fun st pool name v h => ?_,
    fun st pool name v hdoc h => ?_, fun st pool name v h => ?_⟩
  · rw [SetFieldAtomic, h]
    cases hg : valFieldGet doc name with
    | none => simp [hg]
    | some x =>
      cases x <;> simp_all
      rename_i s
      by_cases hs : s = "" <;> simp [hs]
  · simp [SetFieldAtomic, h]
  · rcases hdoc with hnone | ⟨fs, hfs⟩
    · simp only [SetFieldAtomic, hnone] at h ⊢
      refine ⟨.vstruct [(name, true, v)], ?_, ?_⟩
      · simp [storeFind_upsert_self]
      · simp [valFieldGet, fieldsGet, sameLowerName_self]
    · simp only [SetFieldAtomic, hfs, valFieldGet] at h ⊢
      cases hg : fieldsGet fs name with
      | none =>
        simp only [hg]
        refine ⟨.vstruct (fieldsSet fs name v), ?_, ?_⟩
        · simp [valFieldSet, storeFind_upsert_self]
        · simp [valFieldGet, fieldsGet_set_self]
      | some x =>
        simp only [hg] at h ⊢
        cases x with
        | vstr sx =>
          by_cases hs : sx = ""
          · subst hs
            refine ⟨.vstruct (fieldsSet fs name v), ?_, ?_⟩
            · simp [valFieldSet, storeFind_upsert_self]
            · simp [valFieldGet, fieldsGet_set_self]
          · simp [hs] at h
        | vint a => simp at h
        | vbool b => simp at h
        | vtime t => simp at h
        | vptrNil => simp at h
        | vptr w => simp at h
        | vsliceNil => simp at h
        | vslice xs => simp at h
        | vmapNil => simp at h
        | vmap m => simp at h
        | vstruct gs => simp at h
  · rw [SetFieldAtomic] at h ⊢
    cases hf : storeFind st pool with
    | none => simp [hf] at h
    | some doc =>
      simp only [hf] at h ⊢
      cases hg : valFieldGet doc name with
      | none => simp [hg] at h
      | some x =>
        simp only [hg] at h ⊢
        cases x
        case vstr sx =>
          by_cases hs : sx = ""
          · subst hs
            simp at h
          · simp [hs]
        all_goals rfl

/-- Witness applying the claim theorem at a concrete input, discharging
its hypotheses there. -/
theorem C8_set_field_atomic_witness :
    (storeFind [("p", fooRec (.vstr "busy") false)] "p" =
        some (fooRec (.vstr "busy") false) ∧
      ((SetFieldAtomic [("p", fooRec (.vstr "busy") false)] "p" "Foo"
          (.vstr "w")).2 = true ↔
        valFieldGet (fooRec (.vstr "busy") false) "Foo" = none ∨
        valFieldGet (fooRec (.vstr "busy") false) "Foo" =
          some (.vstr ""))) ∧
    (storeFind ([] : Store) "p" = none ∧
      (SetFieldAtomic ([] : Store) "p" "Foo" (.vstr "w")).2 = true) :=
  ⟨⟨rfl, C8_set_field_atomic.1 [("p", fooRec (.vstr "busy") false)] "p"
      "Foo" (.vstr "w") (fooRec (.vstr "busy") false) rfl⟩,
    ⟨rfl, C8_set_field_atomic.2.1 [] "p" "Foo" (.vstr "w") rfl⟩⟩

/-! Infrastructure for inductive reasoning over `GoVal`: a size-based
induction principle (the merge only recurses into struct fields), and
pointwise descriptions of the field loop. -/

theorem list_set_same {α : Type} :
    ∀ (l : List α) (i : Nat) (a : α), l.get? i = some a → l.set i a = l
  | [], _, _, h => by simp [List.get?] at h
  | x :: xs, 0, a, h => by
    simp [List.get?] at h
    simp [List.set, h]
  | x :: xs, i + 1, a, h => by
    simp only [List.get?] at h
    simp [List.set, list_set_same xs i a h]

/-- Induction on a `GoVal` with hypotheses only where the merge and the
auxiliary predicates actually recurse (struct fields and one pointer
level). -/
theorem GoVal.inductionOn (motive : GoVal → Prop)
    (hint : ∀ i, motive (.vint i)) (hstr : ∀ s, motive (.vstr s))
    (hboo : ∀ b, motive (.vbool b)) (htim : ∀ t, motive (.vtime t))
    (hpn : motive .vptrNil) (hp : ∀ v, motive v → motive (.vptr v))
    (hsn : motive .vsliceNil) (hs : ∀ xs, motive (.vslice xs))
    (hmn : motive .vmapNil) (hm : ∀ m, motive (.vmap m))
    (hst : ∀ fs, (∀ nm ex v, (nm, ex, v) ∈ fs → motive v) →
      motive (.vstruct fs)) :
    ∀ v, motive v := by
  have key : ∀ (N : Nat) (v : GoVal), sizeOf v ≤ N → motive v := by
    intro N
    induction N with
    | zero =>
      intro v hv
      exfalso
      cases v <;> simp at hv
    | succ N ih =>
      intro v hv
      cases v with
      | vint i => exact hint i
      | vstr s => exact hstr s
      | vbool b => exact hboo b
      | vtime t => exact htim t
      | vptrNil => exact hpn
      | vptr w =>
        refine hp w (ih w ?_)
        have : sizeOf (GoVal.vptr w) = 1 + sizeOf w := by simp
        omega
      | vsliceNil => exact hsn
      | vslice xs => exact hs xs
      | vmapNil => exact hmn
      | vmap m => exact hm m
      | vstruct fs =>
        refine hst fs fun nm ex w hw => ih w ?_
        have h1 : sizeOf (nm, ex, w) < sizeOf fs := List.sizeOf_lt_of_mem hw
        have h2 : sizeOf (GoVal.vstruct fs) = 1 + sizeOf fs := by simp
        have h3 : sizeOf w < sizeOf (nm, ex, w) := by simp; omega
        omega
  exact fun v => key (sizeOf v) v le_rfl

/-- Pointwise value of the precomputed recursion list. -/
theorem mergeFieldsZip_get (n : NScopedConfig) (si : Bool) :
    ∀ (bs ps : List Fld) (i : Nat) (nm ex : _) (f1 : GoVal)
      (pn pe : _) (f2 : GoVal),
      bs.get? i = some (nm, ex, f1) → ps.get? i = some (pn, pe, f2) →
      (mergeFieldsZip n si bs ps).get? i =
        some (mergeIntoInherited n f1 f2 si)
  | [], _, i, _, _, _, _, _, _, hb, _ => by simp [List.get?] at hb
  | _ :: _, [], i, _, _, _, _, _, _, _, hp => by simp [List.get?] at hp
  | (bn, bx, bv) :: bs, (pn0, px, pv) :: ps, 0, nm, ex, f1, pn, pe, f2,
      hb, hp => by
    simp only [List.get?] at hb hp
    cases hb
    cases hp
    rfl
  | (bn, bx, bv) :: bs, (pn0, px, pv) :: ps, i + 1, nm, ex, f1, pn, pe, f2,
      hb, hp => by
    simp only [List.get?] at hb hp
    simpa [mergeFieldsZip, List.get?] using
      mergeFieldsZip_get n si bs ps i nm ex f1 pn pe f2 hb hp

/-- If every reachable field of the current state merges to itself with
no error and no override (and inheritance tracking is off), the field
loop returns its input unchanged. -/
theorem mergeStructFields_keep (n : NScopedConfig) (ps : List Fld)
    (recs : List (Option MergeOut)) :
    ∀ (fuel i : Nat) (st : List Fld) (m : Bool),
      (∀ j nm ex f1, st.get? j = some (nm, ex, f1) →
        nameEndsInherited nm = false → ex = true →
        ((∃ pn pe f2, ps.get? j = some (pn, pe, f2) ∧
            isEmpty n f2 = true) ∧
          recs.get? j = some (some ⟨f1, false, none⟩))) →
      mergeStructFields n false ps recs fuel i st m = some (st, m, none) := by
  intro fuel
  induction fuel with
  | zero => intro i st m _; rfl
  | succ fuel ih =>
    intro i st m H
    rw [mergeStructFields]
    cases hst : st.get? i with
    | none => exact ih (i + 1) st m H
    | some f =>
      obtain ⟨nm, ex, f1⟩ := f
      by_cases hinh : nameEndsInherited nm = true
      · simp only [hinh, if_true]
        exact ih (i + 1) st m H
      · simp only [Bool.not_eq_true] at hinh
        simp only [hinh, Bool.false_eq_true, if_false]
        cases hex : ex with
        | false => simp only [Bool.not_false, if_true]; exact ih (i + 1) st m H
        | true =>
          simp only [Bool.not_true, Bool.false_eq_true, if_false]
          obtain ⟨⟨pn, pe, f2, hps, hf2⟩, hrec⟩ :=
            H i nm ex f1 hst hinh hex
          rw [hps]
          cases hsh : n.ShallowMerge with
          | true =>
            simp only [hsh, if_true, hf2, Bool.not_true,
              Bool.false_eq_true, if_false]
            exact ih (i + 1) st m H
          | false =>
            simp only [hsh, Bool.false_eq_true, if_false]
            rw [hrec]
            rw [hex] at hst
            have hset : st.set i (nm, true, f1) = st :=
              list_set_same st i (nm, true, f1) hst
            show mergeStructFields n false ps recs fuel (i + 1)
                (st.set i (nm, true, f1)) (m || false) = some (st, m, none)
            rw [hset]
            simpa using ih (i + 1) st (m || false) H

mutual

/-- Alignment of an empty override value with its base value: where the
merge recurses (struct against struct) or iterates (map against map),
the override must have the base's kind; elsewhere an empty override is
simply skipped.  This is guaranteed by the same-typedness of base and
override in the engine. -/
def fieldAlignedEmpty (n : NScopedConfig) : GoVal → GoVal → Bool
  | .vstruct bs, p =>
    match p with
    | .vstruct ps => emptyFieldsFor n bs ps
    | _ => false
  | .vmapNil, p =>
    match p with
    | .vmapNil => true
    | _ => false
  | .vmap _, p =>
    match p with
    | .vmapNil => true
    | _ => false
  | _, _ => true

/-- Every override field is empty (and aligned with its base field, see
`fieldAlignedEmpty`); the override record may not be shorter than the
base record. -/
def emptyFieldsFor (n : NScopedConfig) : List Fld → List Fld → Bool
  | [], _ => true
  | _ :: _, [] => false
  | (_, _, b) :: bs, (_, _, p) :: ps =>
    isEmpty n p && fieldAlignedEmpty n b p && emptyFieldsFor n bs ps

end

/-- Pointwise consequences of `emptyFieldsFor`. -/
theorem emptyFieldsFor_get (n : NScopedConfig) :
    ∀ (bs ps : List Fld), emptyFieldsFor n bs ps = true →
      ∀ (j : Nat) (nm ex : _) (f1 : GoVal), bs.get? j = some (nm, ex, f1) →
        ∃ pn pe f2, ps.get? j = some (pn, pe, f2) ∧
          isEmpty n f2 = true ∧ fieldAlignedEmpty n f1 f2 = true
  | [], _, _, j, nm, ex, f1, hb => by simp [List.get?] at hb
  | (bn, bx, bv) :: bs, [], h, _, _, _, _, _ => by
    simp [emptyFieldsFor] at h
  | (bn, bx, bv) :: bs, (pn0, px, pv) :: ps, h, 0, nm, ex, f1, hb => by
    simp only [emptyFieldsFor, Bool.and_eq_true] at h
    simp only [List.get?] at hb
    cases hb
    exact ⟨pn0, px, pv, rfl, h.1.1, h.1.2⟩
  | (bn, bx, bv) :: bs, (pn0, px, pv) :: ps, h, j + 1, nm, ex, f1, hb => by
    simp only [emptyFieldsFor, Bool.and_eq_true] at h
    simp only [List.get?] at hb
    exact emptyFieldsFor_get n bs ps h.2 j nm ex f1 hb

/-- Merging an empty (aligned) override value onto any base without
inheritance tracking returns the base unchanged, reports no override and
no error. -/
theorem mergeEmpty_id (n : NScopedConfig) :
    ∀ (b p : GoVal), isEmpty n p = true → fieldAlignedEmpty n b p = true →
      mergeIntoInherited n b p false = some ⟨b, false, none⟩ := by
  have main : ∀ b : GoVal, ∀ p, isEmpty n p = true →
      fieldAlignedEmpty n b p = true →
      mergeIntoInherited n b p false = some ⟨b, false, none⟩ := by
    intro b
    induction b using GoVal.inductionOn with
    | hint i => intro p hp _; simp [mergeIntoInherited, hp]
    | hstr s => intro p hp _; simp [mergeIntoInherited, hp]
    | hboo b => intro p hp _; simp [mergeIntoInherited, hp]
    | htim t => intro p hp _; simp [mergeIntoInherited, hp]
    | hpn => intro p hp _; simp [mergeIntoInherited, hp]
    | hp v _ => intro p hp _; simp [mergeIntoInherited, hp]
    | hsn => intro p hp _; simp [mergeIntoInherited, hp]
    | hs xs => intro p hp _; simp [mergeIntoInherited, hp]
    | hmn =>
      intro p hp ha
      cases p <;> simp [fieldAlignedEmpty] at ha <;>
        simp [mergeIntoInherited, mergeMapVal, mkMapVal]
    | hm m =>
      intro p hp ha
      cases p <;> simp [fieldAlignedEmpty] at ha <;>
        simp [mergeIntoInherited, mergeMapVal, mkMapVal]
    | hst fs ihf =>
      intro p hp ha
      cases p with
      | vstruct ps =>
        simp only [fieldAlignedEmpty] at ha
        rw [mergeIntoInherited]
        rw [mergeStructFields_keep n ps (mergeFieldsZip n false fs ps)
          fs.length 0 fs false ?_]
        intro j nm ex f1 hb hni hex
        obtain ⟨pn, pe, f2, hpsj, hf2, hal⟩ :=
          emptyFieldsFor_get n fs ps ha j nm ex f1 hb
        refine ⟨⟨pn, pe, f2, hpsj, hf2⟩, ?_⟩
        rw [mergeFieldsZip_get n false fs ps j nm ex f1 pn pe f2 hb hpsj]
        have hmem : (nm, ex, f1) ∈ fs := List.get?_mem hb
        rw [ihf nm ex f1 hmem f2 hf2 hal]
      | vint i => simp [fieldAlignedEmpty] at ha
      | vstr s => simp [fieldAlignedEmpty] at ha
      | vbool b => simp [fieldAlignedEmpty] at ha
      | vtime t => simp [fieldAlignedEmpty] at ha
      | vptrNil => simp [fieldAlignedEmpty] at ha
      | vptr w => simp [fieldAlignedEmpty] at ha
      | vsliceNil => simp [fieldAlignedEmpty] at ha
      | vslice xs => simp [fieldAlignedEmpty] at ha
      | vmapNil => simp [fieldAlignedEmpty] at ha
      | vmap m => simp [fieldAlignedEmpty] at ha
  exact main

/-- Struct-level identity: merging a record all of whose fields are
empty (and aligned) onto a base record, without inheritance tracking,
returns the base unchanged. -/
theorem mergeEmptyFields_id (n : NScopedConfig) (bs ps : List Fld)
    (h : emptyFieldsFor n bs ps = true) :
    mergeIntoInherited n (.vstruct bs) (.vstruct ps) false =
      some ⟨.vstruct bs, false, none⟩ := by
  rw [mergeIntoInherited]
  rw [mergeStructFields_keep n ps (mergeFieldsZip n false bs ps)
    bs.length 0 bs false ?_]
  intro j nm ex f1 hb hni hex
  obtain ⟨pn, pe, f2, hpsj, hf2, hal⟩ :=
    emptyFieldsFor_get n bs ps h j nm ex f1 hb
  refine ⟨⟨pn, pe, f2, hpsj, hf2⟩, ?_⟩
  rw [mergeFieldsZip_get n false bs ps j nm ex f1 pn pe f2 hb hpsj]
  rw [mergeEmpty_id n f1 f2 hf2 hal]

theorem storeUpsert_same :
    ∀ (st : Store) (k : String) (v : GoVal),
      storeFind st k = some v → storeUpsert st k v = st
  | [], _, _, h => by simp [storeFind] at h
  | (e1, e2) :: rest, k, v, h => by
    by_cases he : (e1 == k) = true
    · have he2 : e1 = k := by simpa using he
      simp only [storeFind, he, if_true] at h
      cases h
      simp [storeUpsert, he, he2]
    · simp only [Bool.not_eq_true] at he
      simp only [storeFind, he, Bool.false_eq_true, if_false] at h
      simp [storeUpsert, he, storeUpsert_same rest k v h]

/-- Counterexample to claim C2 as stated: in the inheritance-tracking
merge context (the two-layer Load blend), merging an override all of
whose fields are empty does NOT leave the base unchanged — the companion
`FooInherited` flag of the base is rewritten to true. -/
theorem C2_counterexample :
    isEmpty deepCfg (.vstr "") = true ∧
    isEmpty deepCfg (.vbool false) = true ∧
    mergeInto deepCfg (fooRec (.vstr "x") false) (fooRec (.vstr "") false) =
      some ⟨fooRec (.vstr "x") true, false, none⟩ ∧
    fooRec (.vstr "x") true ≠ fooRec (.vstr "x") false :=
  ⟨rfl, rfl, rfl, by simp [fooRec]⟩

/-- Claim C2 (amended) — merging an override all of whose fields are
empty onto any base leaves the base unchanged (reporting no override and
no error) in the merge contexts that do not track inheritance: the bare
merge with tracking off (as used by SaveMerge), in deep or shallow mode;
consequently SaveMerge of an all-empty override against an existing
entry leaves the store unchanged.  Under the inheritance-tracking Load
merge the non-companion fields are likewise kept, but declared
`FooInherited` companions are rewritten (see the counterexample), so the
claim's "every merge context" fails there. -/
theorem C2_empty_override_identity_amended :
    (∀ (n : NScopedConfig) (bs ps : List Fld),
        emptyFieldsFor n bs ps = true →
        mergeIntoInherited n (.vstruct bs) (.vstruct ps) false =
          some ⟨.vstruct bs, false, none⟩) ∧
    (∀ (n : NScopedConfig) (st : Store) (pool : String) (fs ps : List Fld),
        storeFind st pool = some (.vstruct fs) →
        emptyFieldsFor n fs ps = true →
        SaveMerge n st pool (.vstruct ps) = .ok st) := by
  refine ⟨fun n bs ps h => mergeEmptyFields_id n bs ps h,
    fun n st pool fs ps hf hef => ?_⟩
  rw [SaveMerge]
  simp only [isStructKind, Bool.not_true, Bool.false_eq_true, if_false]
  rw [hf]
  simp only [Option.getD_some]
  rw [mergeEmptyFields_id n fs ps hef]
  simp only [Save, isStructKind, if_true]
  rw [storeUpsert_same st pool (.vstruct fs) hf]

/-- Witness applying the claim theorem at a concrete input, discharging
its hypotheses there. -/
theorem C2_empty_override_identity_amended_witness :
    emptyFieldsFor deepCfg
        [("Foo", true, GoVal.vstr "x"), ("FooInherited", true, .vbool false)]
        [("Foo", true, GoVal.vstr ""), ("FooInherited", true, .vbool false)] =
      true ∧
    mergeIntoInherited deepCfg
        (.vstruct [("Foo", true, GoVal.vstr "x"),
          ("FooInherited", true, .vbool false)])
        (.vstruct [("Foo", true, GoVal.vstr ""),
          ("FooInherited", true, .vbool false)]) false =
      some ⟨.vstruct [("Foo", true, GoVal.vstr "x"),
        ("FooInherited", true, .vbool false)], false, none⟩ :=
  ⟨rfl, C2_empty_override_identity_amended.1 deepCfg
    [("Foo", true, GoVal.vstr "x"), ("FooInherited", true, .vbool false)]
    [("Foo", true, GoVal.vstr ""), ("FooInherited", true, .vbool false)] rfl⟩

/-! Infrastructure for the round-trip claim: zero values, and the
conditions under which a merge onto a zero base reproduces the
override. -/

theorem zeroFields_length : ∀ fs : List Fld,
    (zeroFields fs).length = fs.length
  | [] => rfl
  | (nm, ex, v) :: rest => by simp [zeroFields, zeroFields_length rest]

theorem zeroFields_get : ∀ (fs : List Fld) (j : Nat),
    (zeroFields fs).get? j =
      Option.map (fun f : Fld => (f.1, f.2.1, zeroOf f.2.2)) (fs.get? j)
  | [], _ => rfl
  | (nm, ex, v) :: rest, 0 => rfl
  | (nm, ex, v) :: rest, j + 1 => by
    simpa [zeroFields, List.get?] using zeroFields_get rest j

theorem zeroFields_name_mem : ∀ (fs : List Fld) (f : Fld),
    f ∈ zeroFields fs → ∃ g ∈ fs, f.1 = g.1
  | [], f, h => by simp [zeroFields] at h
  | (nm, ex, v) :: rest, f, h => by
    simp only [zeroFields, List.mem_cons] at h
    rcases h with h | h
    · exact ⟨(nm, ex, v), List.mem_cons_self _ _, by simp [h]⟩
    · obtain ⟨g, hg, he⟩ := zeroFields_name_mem rest f h
      exact ⟨g, List.mem_cons_of_mem _ hg, he⟩

/-- A structurally zero value is its own type's zero value. -/
theorem zeroOf_of_isZero : ∀ v : GoVal, isZero v = true → zeroOf v = v := by
  intro v
  induction v using GoVal.inductionOn with
  | hint i => intro h; simp [isZero] at h; simp [zeroOf, h]
  | hstr s => intro h; simp [isZero] at h; simp [zeroOf, h]
  | hboo b => intro h; simp [isZero] at h; simp [zeroOf, h]
  | htim t => intro h; simp [isZero] at h; simp [zeroOf, h]
  | hpn => intro _; rfl
  | hp v _ => intro h; simp [isZero] at h
  | hsn => intro _; rfl
  | hs xs => intro h; simp [isZero] at h
  | hmn => intro _; rfl
  | hm m => intro h; simp [isZero] at h
  | hst fs ihf =>
    intro h
    simp only [isZero] at h
    simp only [zeroOf]
    congr 1
    induction fs with
    | nil => rfl
    | cons f rest ihr =>
      obtain ⟨nm, ex, v⟩ := f
      simp only [fieldsZero, Bool.and_eq_true] at h
      simp only [zeroFields]
      rw [ihf nm ex v (List.mem_cons_self _ _) h.1]
      rw [ihr (fun nm2 ex2 v2 hm2 => ihf nm2 ex2 v2
        (List.mem_cons_of_mem _ hm2)) h.2]

theorem fldNames_zeroFields : ∀ fs : List Fld,
    fldNames (zeroFields fs) = fldNames fs
  | [] => rfl
  | (nm, ex, v) :: rest => by
    simp [zeroFields, fldNames, fldNames_zeroFields rest]

/-- The zero value of a type is assignable to values of that type. -/
theorem tyEq_zeroOf : ∀ v : GoVal, tyEq (zeroOf v) v = true := by
  intro v
  cases v <;> simp [zeroOf, tyEq, kindIdx, fldNames_zeroFields]

theorem zeroOf_idem : ∀ v : GoVal, zeroOf (zeroOf v) = zeroOf v := by
  intro v
  induction v using GoVal.inductionOn with
  | hint i => rfl
  | hstr s => rfl
  | hboo b => rfl
  | htim t => rfl
  | hpn => rfl
  | hp v _ => rfl
  | hsn => rfl
  | hs xs => rfl
  | hmn => rfl
  | hm m => rfl
  | hst fs ihf =>
    simp only [zeroOf]
    congr 1
    induction fs with
    | nil => rfl
    | cons f rest ihr =>
      obtain ⟨nm, ex, v⟩ := f
      simp only [zeroFields]
      rw [ihf nm ex v (List.mem_cons_self _ _)]
      rw [ihr fun nm2 ex2 v2 hm2 => ihf nm2 ex2 v2
        (List.mem_cons_of_mem _ hm2)]

theorem nameEndsInherited_of_isCompanionName (a b : String)
    (h : isCompanionName a b = true) : nameEndsInherited a = true := by
  simp only [isCompanionName, beq_iff_eq] at h
  simp only [nameEndsInherited, charsSuffix, h]
  simp

/-- If no field of the state has an "inherited"-suffixed name, the
companion lookup finds nothing and the companion write is the
identity. -/
theorem companionWrite_clean (st : List Fld) (nm : String) (b : Bool)
    (h : ∀ f ∈ st, nameEndsInherited f.1 = false) :
    companionWrite st nm b = some st := by
  unfold companionWrite
  have hfil : (List.range st.length).filter (fun j =>
      match st.get? j with
      | some f => isCompanionName f.1 nm
      | none => false) = [] := by
    rw [List.filter_eq_nil_iff]
    intro j _
    cases hj : st.get? j with
    | none => simp
    | some f =>
      simp only []
      cases hc : isCompanionName f.1 nm with
      | false => simp
      | true =>
        have := h f (List.get?_mem hj)
        rw [nameEndsInherited_of_isCompanionName f.1 nm hc] at this
        simp at this
  rw [hfil]

theorem list_set_append_len {α : Type} :
    ∀ (A : List α) (y : α) (B : List α) (x : α),
      (A ++ y :: B).set A.length x = A ++ x :: B
  | [], y, B, x => rfl
  | a :: A, y, B, x => by
    simp [List.set, list_set_append_len A y B x]

theorem list_get_append_len {α : Type} :
    ∀ (A B : List α), (A ++ B).get? A.length = B.get? 0
  | [], B => rfl
  | a :: A, B => list_get_append_len A B

/-- Distinctness of the keys of an association-list map. -/
def mapKeysDistinct : List (String × GoVal) → Bool
  | [] => true
  | (k, _) :: rest => !(rest.any fun e => e.1 == k) && mapKeysDistinct rest

mutual

/-- Sufficient condition for a record value to survive the zero-base
inheritance-tracking merge unchanged (the round-trip of Save and Load):
no "inherited"-suffixed and no unexported fields anywhere, every empty
leaf is structurally zero (a non-nil empty slice or a pointer to a zero
value would be reset), and every map field is nil or a non-empty map
with distinct keys and no empty values (tombstones and the empty map do
not round-trip). -/
def roundOk (n : NScopedConfig) : GoVal → Bool
  | .vstruct fs => roundOkFields n fs
  | .vmapNil => true
  | .vmap m =>
    !(m.isEmpty) && mapKeysDistinct m &&
      (m.all fun e => !(isEmpty n e.2))
  | .vtime _ => true
  | v => !(isEmpty n v) || isZero v

/-- Fieldwise condition of `roundOk`. -/
def roundOkFields (n : NScopedConfig) : List Fld → Bool
  | [] => true
  | (nm, ex, v) :: rest =>
    !(nameEndsInherited nm) && ex && roundOk n v && roundOkFields n rest

end

theorem roundOkFields_get (n : NScopedConfig) :
    ∀ (fs : List Fld), roundOkFields n fs = true →
      ∀ (j : Nat) (nm : String) (ex : Bool) (v : GoVal),
        fs.get? j = some (nm, ex, v) →
        nameEndsInherited nm = false ∧ ex = true ∧ roundOk n v = true
  | [], _, j, nm, ex, v, hj => by simp [List.get?] at hj
  | (nm0, ex0, v0) :: rest, h, 0, nm, ex, v, hj => by
    simp only [roundOkFields, Bool.and_eq_true] at h
    simp only [List.get?] at hj
    cases hj
    exact ⟨by simpa using h.1.1.1, h.1.1.2, h.1.2⟩
  | (nm0, ex0, v0) :: rest, h, j + 1, nm, ex, v, hj => by
    simp only [roundOkFields, Bool.and_eq_true] at h
    simp only [List.get?] at hj
    exact roundOkFields_get n rest h.2 j nm ex v hj

theorem roundOkFields_names (n : NScopedConfig) :
    ∀ (fs : List Fld), roundOkFields n fs = true →
      ∀ f ∈ fs, nameEndsInherited f.1 = false
  | [], _, f, hf => by simp at hf
  | (nm0, ex0, v0) :: rest, h, f, hf => by
    simp only [roundOkFields, Bool.and_eq_true] at h
    rcases List.mem_cons.mp hf with rfl | hf2
    · simpa using h.1.1.1
    · exact roundOkFields_names n rest h.2 f hf2

/-- Under `roundOk`, an empty value is structurally zero, hence equal to
its own zero value. -/
theorem roundOk_empty_zeroOf (n : NScopedConfig) (v : GoVal)
    (hr : roundOk n v = true) (he : isEmpty n v = true) :
    zeroOf v = v := by
  cases v with
  | vint i => apply zeroOf_of_isZero; simp_all [roundOk, isEmpty]
  | vstr s => apply zeroOf_of_isZero; simp_all [roundOk, isEmpty]
  | vbool b => apply zeroOf_of_isZero; simp_all [roundOk, isEmpty]
  | vtime t =>
    apply zeroOf_of_isZero
    simp only [isEmpty] at he
    cases hae : n.AllowEmpty <;> simp_all [isZero]
  | vptrNil => rfl
  | vptr w => apply zeroOf_of_isZero; simp_all [roundOk, isEmpty, isZero]
  | vsliceNil => rfl
  | vslice xs => apply zeroOf_of_isZero; simp_all [roundOk, isEmpty, isZero]
  | vmapNil => rfl
  | vmap m =>
    exfalso
    simp only [isEmpty] at he
    cases hae : n.AllowEmpty <;> simp_all [isZero]
  | vstruct fs =>
    apply zeroOf_of_isZero
    simp only [isEmpty] at he
    cases hae : n.AllowEmpty <;> simp_all [isZero]

/-- Inserting a fresh key appends it. -/
theorem mapSet_append : ∀ (l : List (String × GoVal)) (k : String)
    (v : GoVal), (l.any fun e => e.1 == k) = false →
    mapSet l k v = l ++ [(k, v)]
  | [], _, _, _ => rfl
  | (k0, v0) :: rest, k, v, h => by
    simp only [List.any_cons, Bool.or_eq_true, not_or] at h
    simp only [Bool.or_eq_false_iff] at h
    simp [mapSet, h.1, mapSet_append rest k v h.2]

/-- Merging a map all of whose values are non-empty, with distinct keys,
into an accumulated fresh map appends all its entries in order. -/
theorem mergeMapEntries_fresh (n : NScopedConfig) :
    ∀ (m acc : List (String × GoVal)),
      (∀ e ∈ m, isEmpty n e.2 = false) → mapKeysDistinct m = true →
      (∀ e ∈ m, (acc.any fun a => a.1 == e.1) = false) →
      ∀ mm, (mergeMapEntries n m (some acc) mm).1 = some (acc ++ m)
  | [], acc, _, _, _, mm => by simp [mergeMapEntries]
  | (k, v) :: rest, acc, hne, hdis, hfresh, mm => by
    simp only [mapKeysDistinct, Bool.and_eq_true] at hdis
    have hkv : isEmpty n v = false := hne (k, v) (List.mem_cons_self _ _)
    simp only [mergeMapEntries, hkv, Bool.false_eq_true, if_false,
      Option.getD_some]
    rw [mapSet_append acc k v (hfresh (k, v) (List.mem_cons_self _ _))]
    have hfresh2 : ∀ e ∈ rest,
        ((acc ++ [(k, v)]).any fun a => a.1 == e.1) = false := by
      intro e he
      rw [List.any_append]
      simp only [Bool.or_eq_false_iff]
      refine ⟨hfresh e (List.mem_cons_of_mem _ he), ?_⟩
      simp only [List.any_cons, List.any_nil, Bool.or_false]
      cases hc : (k == e.1) with
      | false => rfl
      | true =>
        exfalso
        have hk : k = e.1 := by simpa using hc
        have : (rest.any fun x => x.1 == k) = true :=
          List.any_eq_true.mpr ⟨e, he, by simp [hk]⟩
        rw [this] at hdis
        simpa using hdis.1
    have := mergeMapEntries_fresh n rest (acc ++ [(k, v)])
      (fun e he => hne e (List.mem_cons_of_mem _ he)) hdis.2 hfresh2 true
    simpa using this

theorem list_drop_cons {α : Type} :
    ∀ (l : List α) (i : Nat) (x : α), l.get? i = some x →
      l.drop i = x :: l.drop (i + 1)
  | [], i, x, h => by simp [List.get?] at h
  | a :: l, 0, x, h => by
    simp only [List.get?] at h
    cases h
    rfl
  | a :: l, i + 1, x, h => by
    simp only [List.get?] at h
    simpa [List.drop] using list_drop_cons l i x h

theorem list_take_succ_get {α : Type} :
    ∀ (l : List α) (i : Nat) (x : α), l.get? i = some x →
      l.take (i + 1) = l.take i ++ [x]
  | [], i, x, h => by simp [List.get?] at h
  | a :: l, 0, x, h => by
    simp only [List.get?] at h
    cases h
    rfl
  | a :: l, i + 1, x, h => by
    simp only [List.get?] at h
    simpa [List.take] using list_take_succ_get l i x h

/-- Field loop of the merge onto a zero-valued base: with every field
exported, companion-free, assignable and either non-empty or already
zero, the loop rebuilds exactly the override's fields. -/
theorem mergeStructFields_zero (n : NScopedConfig) (fs : List Fld)
    (recs : List (Option MergeOut))
    (Hfld : ∀ (j : Nat) (nmj : String) (exj : Bool) (vj : GoVal),
      fs.get? j = some (nmj, exj, vj) →
      nameEndsInherited nmj = false ∧ exj = true ∧
      tyEq (zeroOf vj) vj = true ∧
      (isEmpty n vj = true → zeroOf vj = vj) ∧
      (∃ r : MergeOut, recs.get? j = some (some r) ∧ r.base = vj ∧
        r.err = none))
    (Hnames : ∀ f ∈ fs, nameEndsInherited f.1 = false) :
    ∀ (fuel i : Nat) (st : List Fld) (m : Bool),
      st = fs.take i ++ (zeroFields fs).drop i →
      fuel + i = fs.length →
      ∃ m2, mergeStructFields n true fs recs fuel i st m =
        some (fs, m2, none) := by
  intro fuel
  induction fuel with
  | zero =>
    intro i st m hst hlen
    have hi : i = fs.length := by omega
    have hst2 : st = fs := by
      rw [hst, hi, List.take_length]
      rw [show (zeroFields fs).drop fs.length = [] from ?_]
      · simp
      · apply List.drop_eq_nil_of_le
        rw [zeroFields_length]
    subst hst2
    exact ⟨m, rfl⟩
  | succ fuel ih =>
    intro i st m hst hlen
    have hilt : i < fs.length := by omega
    obtain ⟨⟨nm, ex, vi⟩, hfsi⟩ : ∃ f, fs.get? i = some f := by
      cases hc : fs.get? i with
      | none =>
        rw [List.get?_eq_none] at hc
        omega
      | some f => exact ⟨f, rfl⟩
    obtain ⟨hnm, hex, hty, hzero, r, hrec, hrbase, hrerr⟩ :=
      Hfld i nm ex vi hfsi
    subst hex
    have htake : (fs.take i).length = i := by
      rw [List.length_take]
      omega
    have hzg : (zeroFields fs).get? i = some (nm, true, zeroOf vi) := by
      rw [zeroFields_get, hfsi]
      rfl
    have hzdrop : (zeroFields fs).drop i =
        (nm, true, zeroOf vi) :: (zeroFields fs).drop (i + 1) :=
      list_drop_cons _ i _ hzg
    have hget_at : ∀ (A B : List Fld), A.length = i →
        (A ++ B).get? i = B.get? 0 := by
      intro A B hA
      subst hA
      exact list_get_append_len A B
    have hset_at : ∀ (A : List Fld) (y : Fld) (B : List Fld) (x : Fld),
        A.length = i → (A ++ y :: B).set i x = A ++ x :: B := by
      intro A y B x hA
      subst hA
      exact list_set_append_len A y B x
    have hstgets : st.get? i = some (nm, true, zeroOf vi) := by
      rw [hst, hzdrop, hget_at _ _ htake]
      rfl
    have htakes : fs.take (i + 1) = fs.take i ++ [(nm, true, vi)] :=
      list_take_succ_get fs i _ hfsi
    have hsetst : st.set i (nm, true, vi) =
        fs.take (i + 1) ++ (zeroFields fs).drop (i + 1) := by
      rw [hst, hzdrop, hset_at _ _ _ _ htake, htakes]
      simp
    rw [mergeStructFields]
    rw [hstgets]
    simp only [hnm, Bool.false_eq_true, if_false, Bool.not_true, hfsi]
    cases hsh : n.ShallowMerge with
    | true =>
      simp only [if_true]
      by_cases hpe : isEmpty n vi = true
      · simp only [hpe, Bool.not_true, Bool.false_eq_true, if_false]
        refine ih (i + 1) st m ?_ (by omega)
        rw [hst, hzdrop, hzero hpe, htakes]
        simp
      · simp only [Bool.not_eq_true] at hpe
        simp only [hpe, Bool.not_false, if_true, hstgets, hty, if_true]
        exact ih (i + 1) (st.set i (nm, true, vi)) true hsetst (by omega)
    | false =>
      have hclean : ∀ f ∈ st.set i (nm, true, vi),
          nameEndsInherited f.1 = false := by
        intro f hf
        rw [hsetst] at hf
        rcases List.mem_append.mp hf with hf1 | hf2
        · exact Hnames f (List.take_subset _ _ hf1)
        · obtain ⟨g, hg, he⟩ :=
            zeroFields_name_mem fs f (List.drop_subset _ _ hf2)
          rw [he]
          exact Hnames g hg
      simp only [Bool.false_eq_true, if_false]
      rw [hrec]
      show ∃ m2, (match r.err with
        | some e => some (st.set i (nm, true, r.base), m, some e)
        | none =>
          match companionWrite (st.set i (nm, true, r.base)) nm
              (!r.merged) with
          | none => none
          | some st2 =>
            mergeStructFields n true fs recs fuel (i + 1) st2
              (m || r.merged)) = some (fs, m2, none)
      rw [hrerr, hrbase]
      show ∃ m2, (match companionWrite (st.set i (nm, true, vi)) nm
            (!r.merged) with
        | none => none
        | some st2 =>
          mergeStructFields n true fs recs fuel (i + 1) st2
            (m || r.merged)) = some (fs, m2, none)
      rw [companionWrite_clean (st.set i (nm, true, vi)) nm (!r.merged)
        hclean]
      exact ih (i + 1) (st.set i (nm, true, vi)) (m || r.merged) hsetst
        (by omega)

theorem mergeZero_leaf (n : NScopedConfig) (v : GoVal)
    (hv : leafKind v = true) (h : roundOk n v = true) :
    ∃ m, mergeIntoInherited n (zeroOf v) v true = some ⟨v, m, none⟩ := by
  have hlz : leafKind (zeroOf v) = true := by
    cases v <;> simp_all [leafKind, zeroOf]
  by_cases hp : isEmpty n v = true
  · have hz := roundOk_empty_zeroOf n v h hp
    refine ⟨false, ?_⟩
    rw [mergeLeaf n true (zeroOf v) v hlz (tyEq_zeroOf v)]
    simp [hp, hz]
  · refine ⟨true, ?_⟩
    rw [mergeLeaf n true (zeroOf v) v hlz (tyEq_zeroOf v)]
    simp [hp]

/-- Merging a `roundOk` value onto the zero value of its own type with
inheritance tracking reproduces the value, with no error. -/
theorem mergeZero (n : NScopedConfig) :
    ∀ v : GoVal, roundOk n v = true →
      ∃ m, mergeIntoInherited n (zeroOf v) v true = some ⟨v, m, none⟩ := by
  intro v
  induction v using GoVal.inductionOn with
  | hint i => intro h; exact mergeZero_leaf n _ rfl h
  | hstr s => intro h; exact mergeZero_leaf n _ rfl h
  | hboo b => intro h; exact mergeZero_leaf n _ rfl h
  | hpn => intro h; exact mergeZero_leaf n _ rfl h
  | hp w _ => intro h; exact mergeZero_leaf n _ rfl h
  | hsn => intro h; exact mergeZero_leaf n _ rfl h
  | hs xs => intro h; exact mergeZero_leaf n _ rfl h
  | htim t =>
    intro h
    by_cases hp : isEmpty n (GoVal.vtime t) = true
    · have hz := roundOk_empty_zeroOf n _ h hp
      refine ⟨false, ?_⟩
      rw [show zeroOf (GoVal.vtime t) = GoVal.vtime t from hz]
      simp [mergeIntoInherited, hp]
    · refine ⟨false, ?_⟩
      simp [mergeIntoInherited, zeroOf, hp]
  | hmn => intro _; exact ⟨false, rfl⟩
  | hm m =>
    intro h
    simp only [roundOk, Bool.and_eq_true, List.all_eq_true] at h
    obtain ⟨⟨hne, hdis⟩, hvals⟩ := h
    cases m with
    | nil => simp at hne
    | cons e rest =>
      obtain ⟨k, v⟩ := e
      simp only [mapKeysDistinct, Bool.and_eq_true] at hdis
      have hkv : isEmpty n v = false := by
        have := hvals (k, v) (List.mem_cons_self _ _)
        simpa using this
      refine ⟨true, ?_⟩
      show mergeMapVal n none (.vmap ((k, v) :: rest)) =
        some ⟨.vmap ((k, v) :: rest), true, none⟩
      rw [mergeMapVal]
      have hstep : mergeMapEntries n ((k, v) :: rest) none false =
          mergeMapEntries n rest (some [(k, v)]) true := by
        simp [mergeMapEntries, hkv, mapSet]
      have hfresh : ∀ e ∈ rest,
          (([(k, v)] : List (String × GoVal)).any
            fun a => a.1 == e.1) = false := by
        intro e he
        simp only [List.any_cons, List.any_nil, Bool.or_false]
        cases hc : (k == e.1) with
        | false => rfl
        | true =>
          exfalso
          have hk : k = e.1 := by simpa using hc
          have : (rest.any fun x => x.1 == k) = true :=
            List.any_eq_true.mpr ⟨e, he, by simp [hk]⟩
          rw [this] at hdis
          simpa using hdis.1
      have hrest := mergeMapEntries_fresh n rest [(k, v)]
        (fun e he => by simpa using hvals e (List.mem_cons_of_mem _ he))
        hdis.2 hfresh true
      have hflag := mergeMapEntries_merged n rest (some [(k, v)]) true
      rw [hstep]
      have hout : mergeMapEntries n rest (some [(k, v)]) true =
          (some ((k, v) :: rest), true) := by
        have h1 : (mergeMapEntries n rest (some [(k, v)]) true).1 =
            some ((k, v) :: rest) := by simpa using hrest
        have h2 : (mergeMapEntries n rest (some [(k, v)]) true).2 = true := by
          simpa using hflag
        cases hmm : mergeMapEntries n rest (some [(k, v)]) true
        rw [hmm] at h1 h2
        simp at h1 h2
        simp [h1, h2]
      rw [hout]
      rfl
  | hst fs ihf =>
    intro h
    simp only [roundOk] at h
    have Hnames := roundOkFields_names n fs h
    have Hfld : ∀ (j : Nat) (nmj : String) (exj : Bool) (vj : GoVal),
        fs.get? j = some (nmj, exj, vj) →
        nameEndsInherited nmj = false ∧ exj = true ∧
        tyEq (zeroOf vj) vj = true ∧
        (isEmpty n vj = true → zeroOf vj = vj) ∧
        (∃ r : MergeOut,
          (mergeFieldsZip n true (zeroFields fs) fs).get? j =
            some (some r) ∧ r.base = vj ∧ r.err = none) := by
      intro j nmj exj vj hj
      obtain ⟨h1, h2, h3⟩ := roundOkFields_get n fs h j nmj exj vj hj
      subst h2
      refine ⟨h1, rfl, tyEq_zeroOf vj, roundOk_empty_zeroOf n vj h3, ?_⟩
      have hzj : (zeroFields fs).get? j = some (nmj, true, zeroOf vj) := by
        rw [zeroFields_get, hj]
        rfl
      have hmem : (nmj, true, vj) ∈ fs := List.get?_mem hj
      obtain ⟨mj, hmj⟩ := ihf nmj true vj hmem h3
      refine ⟨⟨vj, mj, none⟩, ?_, rfl, rfl⟩
      rw [mergeFieldsZip_get n true (zeroFields fs) fs j nmj true
        (zeroOf vj) nmj true vj hzj hj]
      rw [hmj]
    obtain ⟨m2, hm2⟩ := mergeStructFields_zero n fs
      (mergeFieldsZip n true (zeroFields fs) fs) Hfld Hnames
      (zeroFields fs).length 0 (zeroFields fs) false (by simp)
      (by simp [zeroFields_length])
    refine ⟨m2, ?_⟩
    have hz : zeroOf (GoVal.vstruct fs) = GoVal.vstruct (zeroFields fs) := rfl
    rw [hz]
    simp only [mergeIntoInherited]
    rw [hm2]

/-- Counterexample to claim C5 as stated: a record carrying a declared
`FooInherited` companion does not round-trip through Save and Load
against an empty default scope — the Load merge rewrites the companion
flag (here from true to false, because Foo was overridden against the
zero base). -/
theorem C5_counterexample :
    Save ([] : Store) "p" (fooRec (.vstr "x") true) =
      .ok [("p", fooRec (.vstr "x") true)] ∧
    Load deepCfg [("p", fooRec (.vstr "x") true)] "p"
        (zeroOf (fooRec (.vstr "x") true)) =
      .ok (fooRec (.vstr "x") false) ∧
    fooRec (.vstr "x") false ≠ fooRec (.vstr "x") true :=
  ⟨rfl, rfl, by simp [fooRec]⟩

/-- Claim C5 (amended) — for every record value V that is `roundOk`
(no Inherited-suffixed or unexported fields at any level, empty leaf
fields structurally zero, map fields nil or non-empty with distinct keys
and non-empty values) and every non-base scope P, when scope "" holds no
entry, Save(P, V) followed by Load(P, out) yields out = V. -/
theorem C5_save_load_roundtrip_amended :
    ∀ (n : NScopedConfig) (st : Store) (pool : String) (fs : List Fld),
      pool ≠ "" → storeFind st "" = none →
      roundOk n (.vstruct fs) = true →
      (Save st pool (.vstruct fs)).bind
          (fun st2 => Load n st2 pool (zeroOf (.vstruct fs))) =
        .ok (.vstruct fs) := by
  intro n st pool fs hpool hbase hok
  have hsave : Save st pool (.vstruct fs) =
      .ok (storeUpsert st pool (.vstruct fs)) := rfl
  rw [hsave]
  show Load n (storeUpsert st pool (.vstruct fs)) pool
      (zeroOf (.vstruct fs)) = .ok (.vstruct fs)
  have h1 : isStructKind (zeroOf (GoVal.vstruct fs)) = true := rfl
  simp only [Load, LoadWithBase, h1, Bool.not_true, Bool.false_eq_true,
    if_false]
  simp only [loadCore, zeroOf_idem]
  have hfind0 : storeFind (storeUpsert st pool (.vstruct fs)) "" = none := by
    rw [storeFind_upsert_ne st pool "" _ fun hc => hpool hc.symm]
    exact hbase
  rw [hfind0]
  have hpoolne : (pool == "") = false := beq_eq_false_iff_ne.mpr hpool
  simp only [hpoolne, Bool.false_eq_true, if_false]
  have hfindp : storeFind (storeUpsert st pool (.vstruct fs)) pool =
      some (.vstruct fs) := storeFind_upsert_self st pool _
  rw [hfindp]
  simp only [Option.getD_some]
  obtain ⟨m2, hm⟩ := mergeZero n (.vstruct fs) hok
  simp only [mergeInto]
  rw [hm]

/-- Witness applying the claim theorem at a concrete input, discharging
its hypotheses there. -/
theorem C5_save_load_roundtrip_amended_witness :
    ("p" : String) ≠ "" ∧
    storeFind ([] : Store) "" = none ∧
    roundOk deepCfg (.vstruct [("Foo", true, GoVal.vstr "x")]) = true ∧
    (Save ([] : Store) "p" (.vstruct [("Foo", true, GoVal.vstr "x")])).bind
        (fun st2 => Load deepCfg st2 "p"
          (zeroOf (.vstruct [("Foo", true, GoVal.vstr "x")]))) =
      .ok (.vstruct [("Foo", true, GoVal.vstr "x")]) :=
  ⟨by decide, rfl, rfl,
    C5_save_load_roundtrip_amended deepCfg [] "p"
      [("Foo", true, GoVal.vstr "x")] (by decide) rfl rfl⟩

/-- Claim C4 — the emptiness policy classifies a value as empty iff it
is a nil pointer/slice/map value, or, only when AllowEmpty is false, it
structurally equals the zero value of its type (dereferencing one level
of pointer indirection and counting a non-nil zero-length slice as
empty); and in `merge({X:0},{X:0})` the override's 0 counts as an
override exactly when AllowEmpty is true. -/
theorem C4_emptiness_policy :
    (∀ (n : NScopedConfig) (v : GoVal),
        isEmpty n v = isEmptySpec n.AllowEmpty v) ∧
    mergeIntoInherited deepAllowEmptyCfg recX0 recX0 false =
      some ⟨recX0, true, none⟩ ∧
    mergeIntoInherited deepCfg recX0 recX0 false =
      some ⟨recX0, false, none⟩ := by
  refine ⟨fun n v => ?_, rfl, rfl⟩
  cases v <;>
    simp [isEmpty, isEmptySpec, isNilContainerSpec, structurallyZeroSpec,
      isZero]

end ScopedConfig
